import Mathlib

/-!
Verification of the Snaze maze-game core: grid model (`Level`), agent (`Snake`),
BFS pathfinding, randomized fallback and the simulation controller
(`SnazeSimulation`).  All definitions are shallow embeddings of the C++ sources:
`level.cpp` (Level methods), `snake.cpp` (Snake methods, `move`, the BFS and the
random fallback), `SnazeSimulation` methods from the simulation translation
units, and the headers `level.hpp`, `snake.hpp`, `tile_pos.hpp`,
`SnazeSimulation.hpp`.

Machine-integer conventions: C++ `size_t` arithmetic (used for tile
coordinates) is modelled on `Nat` with an explicit `% 2 ^ 64`; C++ `int`
counters (score, lives, food) are modelled on `Int`.  Calls to the random
number generator are modelled by explicit parameters: the shuffled direction
order for `search_random`, and the drawn index for `place_food`.  Console
output (`print_*`) has no effect on the modelled state and is omitted.
-/

namespace Snaze

/-- Modulus of C++ `size_t` arithmetic (64-bit). -/
def USIZE : Nat := 2 ^ 64

/-- `TilePos` from tile_pos.hpp: a (row, col) pair of `size_t`. -/
structure TilePos where
  row : Nat
  col : Nat
deriving DecidableEq

instance : Inhabited TilePos := ⟨⟨0, 0⟩⟩

/-- `Level::tile_type_e` from level.hpp. -/
inductive tile_type_e where
  | EMPTY
  | WALL
  | INV_WALL
  | FOOD
  | SNAKE_HEAD
  | SNAKE_BODY
deriving DecidableEq

/-- `Level` from level.hpp: the maze grid plus the spawn and food locations.
The C++ grid is a `vector<vector<int>>`; rows are modelled as lists of tiles. -/
structure Level where
  m_maze : List (List tile_type_e)
  m_spawn_loc : TilePos
  m_food_loc : TilePos
deriving DecidableEq

instance : Inhabited Level := ⟨⟨[], ⟨0, 0⟩, ⟨0, 0⟩⟩⟩

/-- `Level::n_rows`: `m_maze.size()`. -/
def Level.n_rows (lv : Level) : Nat := lv.m_maze.length

/-- `Level::n_cols`: `m_maze[0].size()` (first row; the constructor makes the
grid rectangular).  An empty grid is totalized to 0 columns. -/
def Level.n_cols (lv : Level) : Nat := (lv.m_maze.headD []).length

/-- `Level::get_tile_type`: `m_maze[row][col]`.  Out-of-range access is
undefined behaviour in C++; it is totalized with the default `EMPTY`, which is
also the value `vector<int>` cells are zero-initialized to. -/
def Level.get_tile_type (lv : Level) (t_pos : TilePos) : tile_type_e :=
  (lv.m_maze.getD t_pos.row []).getD t_pos.col tile_type_e.EMPTY

/-- `Level::set_tile_type`: `m_maze[row][col] = type`.  Out-of-range writes
(undefined behaviour in C++) are totalized as no-ops via `List.set`. -/
def Level.set_tile_type (lv : Level) (t_type : tile_type_e) (t_pos : TilePos) : Level :=
  { lv with m_maze := lv.m_maze.set t_pos.row ((lv.m_maze.getD t_pos.row []).set t_pos.col t_type) }

/-- `Level::get_food_loc`. -/
def Level.get_food_loc (lv : Level) : TilePos := lv.m_food_loc

/-- `Level::get_spawn_loc` (level.hpp, inline). -/
def Level.get_spawn_loc (lv : Level) : TilePos := lv.m_spawn_loc

/-- `Level::remove_snake`: every `SNAKE_HEAD`/`SNAKE_BODY` cell becomes
`EMPTY`.  The C++ loops over `i < n_rows(), j < n_cols()` with direct
indexing; on the rectangular grids the constructor builds this is the same as
mapping over every stored cell. -/
def Level.remove_snake (lv : Level) : Level :=
  { lv with m_maze := lv.m_maze.map (fun r =>
      r.map (fun t =>
        if t = tile_type_e.SNAKE_HEAD ∨ t = tile_type_e.SNAKE_BODY then tile_type_e.EMPTY else t)) }

/-- `Level::empty_spaces`: all positions `(i, j)` with `i < n_rows`,
`j < n_cols` whose tile is `EMPTY`, in row-major order. -/
def Level.empty_spaces (lv : Level) : List TilePos :=
  (List.range lv.n_rows).flatMap (fun i =>
    (List.range lv.n_cols).filterMap (fun j =>
      if (lv.m_maze.getD i []).getD j tile_type_e.EMPTY = tile_type_e.EMPTY then
        some ⟨i, j⟩
      else none))

/-- `Level::place_food`: if there is no empty space, return unchanged;
otherwise pick the empty space at the drawn index, store it in `m_food_loc`
and mark it `FOOD`.  The uniform draw `dist(gen)` over `[0, size-1]` is
modelled by the parameter `k`, reduced mod the list length exactly as the
distribution confines the draw to valid indices. -/
def Level.place_food (lv : Level) (k : Nat) : Level :=
  let vec_empty_spaces := lv.empty_spaces
  if vec_empty_spaces = [] then lv
  else
    let loc := vec_empty_spaces.getD (k % vec_empty_spaces.length) ⟨0, 0⟩
    { lv.set_tile_type tile_type_e.FOOD loc with m_food_loc := loc }

/-- `Level::crashed`: true when the position is out of bounds, or the tile is
neither `EMPTY` nor `FOOD`.  The bounds test comes first, so the tile is only
inspected in bounds. -/
def Level.crashed (lv : Level) (t_pos : TilePos) : Bool :=
  if lv.n_rows ≤ t_pos.row ∨ lv.n_cols ≤ t_pos.col then
    true
  else
    let t_type := lv.get_tile_type t_pos
    decide (t_type ≠ tile_type_e.EMPTY ∧ t_type ≠ tile_type_e.FOOD)

/-- `direction` from snake.hpp. -/
inductive direction where
  | up
  | right
  | down
  | left
deriving DecidableEq

/-- The index a `direction` is cast to (`static_cast<int>(dir)`). -/
def direction.toFin : direction → Fin 4
  | direction.up => 0
  | direction.right => 1
  | direction.down => 2
  | direction.left => 3

/-- The row offsets `int drow[] = {-1, 0, 1, 0}`, as `size_t` summands:
`-1` converts to `2^64 - 1`. -/
def drow (i : Fin 4) : Nat :=
  if i.val = 0 then USIZE - 1 else if i.val = 2 then 1 else 0

/-- The column offsets `int dcol[] = {0, 1, 0, -1}`, as `size_t` summands. -/
def dcol (i : Fin 4) : Nat :=
  if i.val = 1 then 1 else if i.val = 3 then USIZE - 1 else 0

/-- The position one step in the `i`-th direction:
`TilePos(row + drow[i], col + dcol[i])` with `size_t` (mod `2^64`) addition. -/
def nbr (current_pos : TilePos) (i : Fin 4) : TilePos :=
  ⟨(current_pos.row + drow i) % USIZE, (current_pos.col + dcol i) % USIZE⟩

/-- `move` from snake.cpp. -/
def move (current_pos : TilePos) (dir : direction) : TilePos :=
  nbr current_pos dir.toFin

/-- `Snake` from snake.hpp: body (deque, head at the front) and the transient
flags. -/
structure Snake where
  body : List TilePos
  found_foods : Bool := false
  collision : Bool := false
  wall_collision : Bool := false
deriving DecidableEq

/-- `Snake::init`: clear the body and push the start position. -/
def Snake.init (sn : Snake) (start_pos : TilePos) : Snake :=
  { sn with body := [start_pos] }

/-- `Snake::is_valid_position`: the tile is not a `WALL` and the position is
not occupied by any body segment.  (No bounds check, and no check against
`INV_WALL`, `FOOD`, `SNAKE_HEAD` or `SNAKE_BODY` tiles beyond the body scan.) -/
def Snake.is_valid_position (sn : Snake) (pos : TilePos) (lv : Level) : Bool :=
  if lv.get_tile_type pos = tile_type_e.WALL then false
  else if pos ∈ sn.body then false
  else true

/-- `Snake::search_random`: try the four directions in the shuffled order and
return the first whose target is a valid position.  The outcome of
`std::shuffle` on `{up, right, down, left}` is modelled by the explicit
`order` parameter. -/
def Snake.search_random (sn : Snake) (head_pos : TilePos) (lv : Level)
    (order : List direction) : Option direction :=
  order.find? (fun dir => sn.is_valid_position (move head_pos dir) lv)

/-- The linearized key `pos.row * n_cols + pos.col` used for the predecessor
map in the BFS. -/
def linKey (cols : Nat) (p : TilePos) : Nat := p.row * cols + p.col

/-- The `while (true)` walk in `Snake::found_food`: repeatedly replace the
current cell by its recorded predecessor (a missing entry default-constructs
`TilePos(0,0)`, as `unordered_map::operator[]` does) until the predecessor is
the start; then the current cell is the next move.  The C++ loop is unbounded;
it is modelled with fuel, and for the maps the BFS builds it is proved to
terminate within `n_rows * n_cols + 1` steps. -/
def found_food_loop (pmap : Nat → Option TilePos) (cols : Nat) (start : TilePos) :
    Nat → TilePos → Option TilePos
  | 0, _ => none
  | fuel + 1, curr =>
    let anterior := (pmap (linKey cols curr)).getD ⟨0, 0⟩
    if anterior = start then some curr
    else found_food_loop pmap cols start fuel anterior

/-- `Snake::found_food`: if the food was found, reconstruct the path; when the
food position has no recorded predecessor the next move is the food position
itself; otherwise walk the predecessor chain.  If the food was not found the
next move is the start.  The `.getD start` default covers the fuel-exhaustion
case of the modelled unbounded loop, which is unreachable for BFS-built maps. -/
def Snake.found_food (achei : Bool) (food_pos : TilePos) (pmap : Nat → Option TilePos)
    (lv : Level) (start : TilePos) : TilePos :=
  if achei then
    if pmap (linKey lv.n_cols food_pos) = none then food_pos
    else (found_food_loop pmap lv.n_cols start (lv.n_rows * lv.n_cols + 1) food_pos).getD start
  else start

/-- The `visit` matrix of the BFS: `n_rows` rows of `n_cols` `false` cells. -/
def mkVisit (lv : Level) : List (List Bool) :=
  List.replicate lv.n_rows (List.replicate lv.n_cols false)

/-- Read `visit[row][col]` (out of range totalized to `false`). -/
def visitGet (v : List (List Bool)) (p : TilePos) : Bool :=
  (v.getD p.row []).getD p.col false

/-- Write `visit[row][col] = true`. -/
def visitSet (v : List (List Bool)) (p : TilePos) : List (List Bool) :=
  v.set p.row ((v.getD p.row []).set p.col true)

/-- The local state of `Snake::breadthFirst_search`: the queue `fila`, the
`visit` matrix, and the predecessor map `main` (modelled as a function from
linearized keys). -/
structure BfsSt where
  fila : List TilePos
  visit : List (List Bool)
  pmap : Nat → Option TilePos

/-- One neighbour step of the BFS inner `for` loop: form `V`, and if `V` is in
bounds, unvisited and not crashed, mark it visited, enqueue it and record its
predecessor.  (The subsequent `if (level.crashed(V))` in the source is dead
code: the enclosing guard has just established `!level.crashed(V)`.) -/
def expandDir (lv : Level) (curr : TilePos) (st : BfsSt) (i : Fin 4) : BfsSt :=
  let V := nbr curr i
  if V.row < lv.n_rows ∧ V.col < lv.n_cols ∧ visitGet st.visit V = false ∧ lv.crashed V = false then
    { fila := st.fila ++ [V]
      visit := visitSet st.visit V
      pmap := fun n => if n = linKey lv.n_cols V then some curr else st.pmap n }
  else st

/-- The BFS inner `for (int i = 0; i < 4; ++i)` loop over the four
directions, in order up, right, down, left. -/
def expand (lv : Level) (curr : TilePos) (st : BfsSt) : BfsSt :=
  (List.finRange 4).foldl (expandDir lv curr) st

/-- The BFS `while (!fila.empty())` loop: pop the front; if its tile is
`FOOD` stop and report it; otherwise expand its neighbours and continue.  The
loop is modelled with fuel; each iteration pops one cell and every push marks
a previously unvisited cell, so `n_rows * n_cols + 1` fuel (the caller's
choice) always suffices. -/
def bfsLoop (lv : Level) : Nat → BfsSt → Option TilePos × BfsSt
  | 0, st => (none, st)
  | fuel + 1, st =>
    match st.fila with
    | [] => (none, st)
    | curr :: rest =>
      if lv.get_tile_type curr = tile_type_e.FOOD then (some curr, { st with fila := rest })
      else bfsLoop lv fuel (expand lv curr { st with fila := rest })

/-- `states` from SnazeSimulation.hpp. -/
inductive states where
  | START
  | WELCOME
  | START_SCREEN
  | SNAKE_THINKING
  | GAME_RUNNING
  | SNAKE_CRASHED
  | LEVEL_UP
  | GAME_WON
  | GAME_OVER
deriving DecidableEq

/-- `player_type_e` from SnazeSimulation.hpp. -/
inductive player_type_e where
  | RANDOM
  | BACKTRACKING
deriving DecidableEq

/-- The state of the `SnazeSimulation` singleton (SnazeSimulation.hpp private
fields).  `int` members are modelled as `Int`. -/
structure SnazeSimulation where
  current_state : states
  levels : List Level
  snake_obj : Snake
  head_pos : TilePos
  dir : direction
  next_dir : direction
  next_pos : TilePos
  score : Int
  fps : Int
  n_lives : Int
  n_food : Int
  player_type : player_type_e
  current_level_index : Int
  current_life : Int
  current_food : Int
deriving DecidableEq

/-- The current level `levels[current_level_index]` (in-range in every
reachable configuration; totalized through `Int.toNat` and a default). -/
def SnazeSimulation.cur_level (sim : SnazeSimulation) : Level :=
  sim.levels.getD sim.current_level_index.toNat default

/-- Write back the (reference-mutated) current level. -/
def SnazeSimulation.setCurLevel (sim : SnazeSimulation) (lv : Level) : SnazeSimulation :=
  { sim with levels := sim.levels.set sim.current_level_index.toNat lv }

/-- `SnazeSimulation::get_states`. -/
def SnazeSimulation.get_states (sim : SnazeSimulation) : states := sim.current_state

/-- `SnazeSimulation::update_score`: `score += 20 * current_food`. -/
def SnazeSimulation.update_score (sim : SnazeSimulation) : SnazeSimulation :=
  { sim with score := sim.score + 20 * sim.current_food }

/-- `SnazeSimulation::reset_food`: `current_food = 0`. -/
def SnazeSimulation.reset_food (sim : SnazeSimulation) : SnazeSimulation :=
  { sim with current_food := 0 }

/-- `Snake::reset`: clear the body, push the level's spawn position, mark the
spawn tile `SNAKE_HEAD` in the level, and clear both flags.  The C++ mutates
the snake and the level through references; both results are returned. -/
def Snake.reset (sn : Snake) (lv : Level) : Snake × Level :=
  let start_pos := lv.get_spawn_loc
  ({ sn with body := [start_pos], found_foods := false, collision := false },
   lv.set_tile_type tile_type_e.SNAKE_HEAD start_pos)

/-- `SnazeSimulation::respawn`: remove the snake from the current level, reset
the snake there, clear `collision`, and set head and next positions to the
spawn. -/
def SnazeSimulation.respawn (sim : SnazeSimulation) : SnazeSimulation :=
  let lv := sim.cur_level.remove_snake
  let p := sim.snake_obj.reset lv
  let sn := { p.1 with collision := false }
  let lv2 := p.2
  let spawn := lv2.get_spawn_loc
  { sim.setCurLevel lv2 with snake_obj := sn, head_pos := spawn, next_pos := spawn }

/-- `SnazeSimulation::level_up`: if a next level exists, advance the index,
reset the snake on the new level, reset the food counter, redraw
(`print_maze_in_lv`, console only) and respawn, then go to `START_SCREEN`;
otherwise go to `GAME_WON`. -/
def SnazeSimulation.level_up (sim : SnazeSimulation) : SnazeSimulation :=
  if sim.current_level_index + 1 < (sim.levels.length : Int) then
    let sim1 := { sim with current_level_index := sim.current_level_index + 1 }
    let p := sim1.snake_obj.reset sim1.cur_level
    let sim2 := { sim1.setCurLevel p.2 with snake_obj := p.1 }
    let sim3 := sim2.reset_food
    let sim4 := sim3.respawn
    { sim4 with current_state := states.START_SCREEN }
  else
    { sim with current_state := states.GAME_WON }

/-- `SnazeSimulation::input_colision`: on food, bump the counter, update the
score, clear `found_foods`, and level up when the target is reached; on a
collision without food, decrement the lives and route to `SNAKE_CRASHED` when
lives remain or `GAME_OVER` when they reach zero. -/
def SnazeSimulation.input_colision (sim : SnazeSimulation) (food colision : Bool) : SnazeSimulation :=
  if food = true then
    let sim1 := { sim with current_food := sim.current_food + 1 }
    let sim2 := sim1.update_score
    let sim3 := { sim2 with snake_obj := { sim2.snake_obj with found_foods := false } }
    if sim3.current_food = sim3.n_food then sim3.level_up else sim3
  else if colision = true ∧ food = false then
    let sim1 := { sim with current_life := sim.current_life - 1 }
    let sim2 :=
      if sim1.current_life > 0 then { sim1 with current_state := states.SNAKE_CRASHED } else sim1
    if sim2.current_life = 0 then { sim2 with current_state := states.GAME_OVER } else sim2
  else sim

/-- `SnazeSimulation::troca`: search a random feasible direction from the
head; on success store it and the stepped position; otherwise signal a logical
collision via `input_colision(false, true)`. -/
def SnazeSimulation.troca (sim : SnazeSimulation) (order : List direction) : SnazeSimulation :=
  match sim.snake_obj.search_random sim.head_pos sim.cur_level order with
  | some d => { sim with next_dir := d, next_pos := move sim.head_pos d }
  | none => sim.input_colision false true

/-- `SnazeSimulation::snake_update`: only in `SNAKE_THINKING`; if the proposed
position crashes, go straight to `GAME_OVER`; otherwise mark the new head,
push it onto the body, pop and clear the tail unless food was eaten (in which
case re-place food, randomness parameter `k`), re-tag the second segment as
`SNAKE_BODY` when the body is longer than one, and commit head position and
direction. -/
def SnazeSimulation.snake_update (sim : SnazeSimulation) (k : Nat) : SnazeSimulation :=
  let comeu := sim.cur_level.get_tile_type sim.next_pos = tile_type_e.FOOD
  if sim.current_state ≠ states.SNAKE_THINKING then sim
  else if sim.cur_level.crashed sim.next_pos then { sim with current_state := states.GAME_OVER }
  else
    let lv1 := sim.cur_level.set_tile_type tile_type_e.SNAKE_HEAD sim.next_pos
    let sn1 := { sim.snake_obj with body := sim.next_pos :: sim.snake_obj.body }
    let q : Snake × Level :=
      if ¬comeu then
        let tail := sn1.body.getLastD ⟨0, 0⟩
        ({ sn1 with body := sn1.body.dropLast }, lv1.set_tile_type tile_type_e.EMPTY tail)
      else (sn1, lv1.place_food k)
    let lv3 := if q.1.body.length > 1 then q.2.set_tile_type tile_type_e.SNAKE_BODY (q.1.body.getD 1 ⟨0, 0⟩) else q.2
    { sim.setCurLevel lv3 with
      snake_obj := q.1, head_pos := sim.next_pos, dir := sim.next_dir }

/-- `Snake::breadthFirst_search`, which operates on the singleton simulation
(`level` aliases `levels[current_level_index]`, `next_move` aliases
`next_pos`): bail out unless `SNAKE_THINKING`; clear the two flags; run the
BFS from the head; if the queue drained, delegate to `troca`; if food was
found, reconstruct the next move, store it in `next_pos`, and when it equals
the stored food location signal `input_colision(true, collision)`. -/
def SnazeSimulation.breadthFirst_search (sim : SnazeSimulation) (order : List direction) :
    SnazeSimulation :=
  if sim.current_state ≠ states.SNAKE_THINKING then sim
  else
    let lv := sim.cur_level
    let start := sim.head_pos
    let sim1 := { sim with snake_obj := { sim.snake_obj with found_foods := false, collision := false } }
    let st0 : BfsSt :=
      { fila := [start], visit := visitSet (mkVisit lv) start, pmap := fun _ => none }
    let r := bfsLoop lv (lv.n_rows * lv.n_cols + 1) st0
    let found := r.1.isSome
    let food_pos := r.1.getD ⟨0, 0⟩
    let sim2 := { sim1 with snake_obj := { sim1.snake_obj with found_foods := found } }
    let sim3 := if r.2.fila = [] then sim2.troca order else sim2
    if found then
      let next_move := Snake.found_food true food_pos r.2.pmap lv start
      let sim4 := { sim3 with next_pos := next_move }
      if next_move = lv.get_food_loc then sim4.input_colision true sim4.snake_obj.collision
      else sim4
    else sim3

/-! Ground-truth reachability, used to state the shortest-path claims.  A step
goes from `p` to one of its four `nbr` cells that is in bounds and not
`crashed` — exactly the cells the BFS inner loop is allowed to enqueue. -/

/-- One admissible step of the maze graph. -/
def validStep (lv : Level) (p q : TilePos) : Prop :=
  (∃ i : Fin 4, nbr p i = q) ∧ q.row < lv.n_rows ∧ q.col < lv.n_cols ∧ lv.crashed q = false

instance instDecValidStep (lv : Level) (p q : TilePos) : Decidable (validStep lv p q) := by
  unfold validStep
  exact inferInstance

/-- Paths of exact length `n` from `start`, over admissible steps. -/
inductive ReachI (lv : Level) (start : TilePos) : Nat → TilePos → Prop where
  | zero : ReachI lv start 0 start
  | succ {n : Nat} {p q : TilePos} :
      ReachI lv start n p → validStep lv p q → ReachI lv start (n + 1) q

/-- All in-bounds cells, row-major. -/
def cells (lv : Level) : List TilePos :=
  (List.range lv.n_rows).flatMap (fun i => (List.range lv.n_cols).map (fun j => ⟨i, j⟩))

/-- Executable version of `ReachI` (every non-start cell of a path is in
bounds, so intermediate cells can be searched in `start :: cells lv`). -/
def reachExact (lv : Level) (start : TilePos) : Nat → TilePos → Bool
  | 0, q => decide (q = start)
  | n + 1, q =>
    (start :: cells lv).any (fun p => reachExact lv start n p && decide (validStep lv p q))

/-- `j` is the shortest-path distance from `start` to `p`. -/
def IsDistAt (lv : Level) (start p : TilePos) (j : Nat) : Prop :=
  ReachI lv start j p ∧ ∀ m, m < j → ¬ ReachI lv start m p

/-- Number of unvisited cells of a visit matrix. -/
def countFalse (v : List (List Bool)) : Nat :=
  (v.map (fun r => r.count false)).sum

/-- Termination measure of the BFS loop: unvisited cells plus queue length.
Each iteration decreases it by exactly one. -/
def bfsMeasure (st : BfsSt) : Nat := countFalse st.visit + st.fila.length

/-- Descending predecessor chain of length `j` recorded in the map `P`: from
`p` (at distance `j` from `start`) each step follows the recorded predecessor,
ending at `start`. -/
def ChainD (lv : Level) (start : TilePos) (P : Nat → Option TilePos) : TilePos → Nat → Prop
  | p, 0 => p = start
  | p, j + 1 =>
    IsDistAt lv start p (j + 1) ∧
      ∃ pr, P (linKey lv.n_cols p) = some pr ∧ validStep lv pr p ∧ ChainD lv start P pr j

/-- Invariant of the BFS loop state, between iterations. -/
structure BfsInv (lv : Level) (start : TilePos) (st : BfsSt) : Prop where
  shape_len : st.visit.length = lv.n_rows
  shape_row : ∀ r ∈ st.visit, r.length = lv.n_cols
  visStart : visitGet st.visit start = true
  visValid : ∀ p, visitGet st.visit p = true → p ≠ start → lv.crashed p = false
  pmapStart : st.pmap (linKey lv.n_cols start) = none
  chain : ∀ p, visitGet st.visit p = true → p ≠ start →
    ∃ j pr, IsDistAt lv start p (j + 1) ∧ st.pmap (linKey lv.n_cols p) = some pr ∧
      validStep lv pr p ∧ visitGet st.visit pr = true ∧ IsDistAt lv start pr j
  filaVis : ∀ q ∈ st.fila, visitGet st.visit q = true
  filaNodup : st.fila.Nodup
  window : ∃ k A B, st.fila = A ++ B ∧ (∀ a ∈ A, IsDistAt lv start a k) ∧
    (∀ b ∈ B, IsDistAt lv start b (k + 1))
  closure : ∀ p, visitGet st.visit p = true → p ∉ st.fila →
    ∀ q, validStep lv p q → visitGet st.visit q = true
  notFood : ∀ p, visitGet st.visit p = true → p ∉ st.fila →
    lv.get_tile_type p ≠ tile_type_e.FOOD

/-- Invariant during the expansion of a popped cell `curr`, sitting at
distance `k`: like `BfsInv` but with `curr` exempted from the closure and
food clauses, the window level pinned at `k`, and a frontier bound recording
that every still-unvisited cell is at distance at least `k + 1`. -/
structure ExpInv (lv : Level) (start curr : TilePos) (k : Nat) (st : BfsSt) : Prop where
  shape_len : st.visit.length = lv.n_rows
  shape_row : ∀ r ∈ st.visit, r.length = lv.n_cols
  visStart : visitGet st.visit start = true
  visValid : ∀ p, visitGet st.visit p = true → p ≠ start → lv.crashed p = false
  pmapStart : st.pmap (linKey lv.n_cols start) = none
  chain : ∀ p, visitGet st.visit p = true → p ≠ start →
    ∃ j pr, IsDistAt lv start p (j + 1) ∧ st.pmap (linKey lv.n_cols p) = some pr ∧
      validStep lv pr p ∧ visitGet st.visit pr = true ∧ IsDistAt lv start pr j
  filaVis : ∀ q ∈ st.fila, visitGet st.visit q = true
  filaNodup : st.fila.Nodup
  window : ∃ A B, st.fila = A ++ B ∧ (∀ a ∈ A, IsDistAt lv start a k) ∧
    (∀ b ∈ B, IsDistAt lv start b (k + 1))
  closure : ∀ p, visitGet st.visit p = true → p ∉ st.fila → p ≠ curr →
    ∀ q, validStep lv p q → visitGet st.visit q = true
  notFood : ∀ p, visitGet st.visit p = true → p ∉ st.fila → p ≠ curr →
    lv.get_tile_type p ≠ tile_type_e.FOOD
  currVis : visitGet st.visit curr = true
  currNotIn : curr ∉ st.fila
  currDist : IsDistAt lv start curr k
  frontier : ∀ p, visitGet st.visit p = false → ∀ m, ReachI lv start m p → k + 1 ≤ m

/-! Harness for sequences of committed movement steps: the controller's
`snake_thinking` stores a proposed position in `next_pos` and `snake_update`
commits it.  A step is a proposed position together with the food-placement
draw for that tick. -/

/-- Run a sequence of committed steps: set `next_pos`, then `snake_update`. -/
def commitRun : SnazeSimulation → List (TilePos × Nat) → SnazeSimulation
  | s, [] => s
  | s, (p, k) :: rest => commitRun (SnazeSimulation.snake_update { s with next_pos := p } k) rest

/-- A run is collision-free: every proposed position is non-crashing in the
level state current when it is committed. -/
def ValidRun : SnazeSimulation → List (TilePos × Nat) → Prop
  | _, [] => True
  | s, (p, k) :: rest =>
    s.cur_level.crashed p = false ∧
      ValidRun (SnazeSimulation.snake_update { s with next_pos := p } k) rest

/-- Number of steps of a run whose proposed position carries `FOOD` when it is
committed (growth steps). -/
def countFoodSteps : SnazeSimulation → List (TilePos × Nat) → Nat
  | _, [] => 0
  | s, (p, k) :: rest =>
    (if s.cur_level.get_tile_type p = tile_type_e.FOOD then 1 else 0) +
      countFoodSteps (SnazeSimulation.snake_update { s with next_pos := p } k) rest

/-- Iterate `N` food events (`input_colision(true, false)`). -/
def foodEvents (sim : SnazeSimulation) : Nat → SnazeSimulation
  | 0 => sim
  | n + 1 => (foodEvents sim n).input_colision true false

/-! Concrete configurations used to witness the theorems below on explicit
inputs. -/

/-- A 1×3 corridor: head at (0,0), food at (0,2). -/
def baseLv : Level :=
  ⟨[[tile_type_e.SNAKE_HEAD, tile_type_e.EMPTY, tile_type_e.FOOD]], ⟨0, 0⟩, ⟨0, 2⟩⟩

/-- A concrete simulation state on `baseLv`. -/
def baseSim : SnazeSimulation :=
  { current_state := states.SNAKE_THINKING
    levels := [baseLv]
    snake_obj := { body := [⟨0, 0⟩] }
    head_pos := ⟨0, 0⟩
    dir := direction.right
    next_dir := direction.right
    next_pos := ⟨0, 0⟩
    score := 0
    fps := 10
    n_lives := 5
    n_food := 10
    player_type := player_type_e.BACKTRACKING
    current_level_index := 0
    current_life := 5
    current_food := 0 }

/-- A 1×3 row whose rightmost cell is a hidden wall, with the agent head in
the middle. -/
def exC2lv : Level :=
  ⟨[[tile_type_e.WALL, tile_type_e.SNAKE_HEAD, tile_type_e.INV_WALL]], ⟨0, 1⟩, ⟨0, 0⟩⟩

/-- The agent sitting at (0,1) of `exC2lv`. -/
def exC2sn : Snake := { body := [⟨0, 1⟩] }

/-- First level of the two-level scenario: food right next to the head. -/
def exC9lv1 : Level :=
  ⟨[[tile_type_e.SNAKE_HEAD, tile_type_e.FOOD, tile_type_e.WALL]], ⟨0, 0⟩, ⟨0, 1⟩⟩

/-- Second level of the two-level scenario. -/
def exC9lv2 : Level :=
  ⟨[[tile_type_e.EMPTY, tile_type_e.EMPTY]], ⟨0, 1⟩, ⟨0, 0⟩⟩

/-- A simulation one food short of the level target, with a further level
available. -/
def exC9sim : SnazeSimulation :=
  { current_state := states.SNAKE_THINKING
    levels := [exC9lv1, exC9lv2]
    snake_obj := { body := [⟨0, 0⟩] }
    head_pos := ⟨0, 0⟩
    dir := direction.right
    next_dir := direction.right
    next_pos := ⟨0, 0⟩
    score := 0
    fps := 10
    n_lives := 5
    n_food := 1
    player_type := player_type_e.BACKTRACKING
    current_level_index := 0
    current_life := 5
    current_food := 0 }

/-- Second level with a far-away spawn (0,3), used to exhibit the proposal
being overwritten by a level transition. -/
def exC1lv2 : Level :=
  ⟨[[tile_type_e.EMPTY, tile_type_e.EMPTY, tile_type_e.EMPTY, tile_type_e.EMPTY]],
    ⟨0, 3⟩, ⟨0, 0⟩⟩

/-- A simulation one food short of the level target whose next level spawns at
(0,3). -/
def exC1sim : SnazeSimulation :=
  { current_state := states.SNAKE_THINKING
    levels := [exC9lv1, exC1lv2]
    snake_obj := { body := [⟨0, 0⟩] }
    head_pos := ⟨0, 0⟩
    dir := direction.right
    next_dir := direction.right
    next_pos := ⟨0, 0⟩
    score := 0
    fps := 10
    n_lives := 5
    n_food := 1
    player_type := player_type_e.BACKTRACKING
    current_level_index := 0
    current_life := 5
    current_food := 0 }

/-! Theorems. -/

/-- Membership in `empty_spaces` is exactly: in bounds and `EMPTY`. -/
theorem mem_empty_spaces {lv : Level} {p : TilePos} :
    p ∈ lv.empty_spaces ↔
      p.row < lv.n_rows ∧ p.col < lv.n_cols ∧ lv.get_tile_type p = tile_type_e.EMPTY := by
  unfold Level.empty_spaces Level.get_tile_type
  simp only [List.mem_flatMap, List.mem_filterMap, List.mem_range]
  constructor
  · rintro ⟨i, hi, j, hj, hsome⟩
    by_cases hc : (lv.m_maze.getD i []).getD j tile_type_e.EMPTY = tile_type_e.EMPTY
    · rw [if_pos hc] at hsome
      cases hsome
      exact ⟨hi, hj, hc⟩
    · rw [if_neg hc] at hsome
      cases hsome
  · rintro ⟨hi, hj, hc⟩
    exact ⟨p.row, hi, p.col, hj, by rw [if_pos hc]⟩

/-- The element drawn by `place_food` from a nonempty list is a member. -/
theorem getD_mod_mem {α : Type} [Inhabited α] {l : List α} (h : l ≠ []) (k : Nat) (d : α) :
    l.getD (k % l.length) d ∈ l := by
  have hlen : 0 < l.length := List.length_pos.mpr h
  have hk : k % l.length < l.length := Nat.mod_lt _ hlen
  rw [List.getD_eq_getElem l d hk]
  exact List.getElem_mem hk

/-- Reading back a tile just written (in-bounds write). -/
theorem get_tile_set_self (lv : Level) (t : tile_type_e) (p : TilePos)
    (hr : p.row < lv.m_maze.length) (hc : p.col < (lv.m_maze.getD p.row []).length) :
    (lv.set_tile_type t p).get_tile_type p = t := by
  unfold Level.set_tile_type Level.get_tile_type
  have h1 : p.row < (lv.m_maze.set p.row ((lv.m_maze.getD p.row []).set p.col t)).length := by
    simpa using hr
  rw [List.getD_eq_getElem _ _ h1, List.getElem_set_self]
  have h2 : p.col < ((lv.m_maze.getD p.row []).set p.col t).length := by simpa using hc
  rw [List.getD_eq_getElem _ _ h2, List.getElem_set_self]

/-- Rows of the maze have length `n_cols` on rectangular grids (as built by
the `Level` constructor); fetch that fact for a row in range. -/
theorem row_length_of_rect {lv : Level} (hrect : ∀ r ∈ lv.m_maze, r.length = lv.n_cols)
    {i : Nat} (hi : i < lv.m_maze.length) :
    (lv.m_maze.getD i []).length = lv.n_cols := by
  rw [List.getD_eq_getElem _ _ hi]
  exact hrect _ (List.getElem_mem hi)

/-- C3: `Level::crashed` is true exactly when the position is outside
`[0, n_rows) × [0, n_cols)` or the tile there is neither `EMPTY` nor `FOOD`;
in particular every out-of-bounds position crashes regardless of tile content
(the bounds disjunct alone forces the result, mirroring the source, where the
bounds test short-circuits before the tile lookup). -/
theorem C3_crashed_iff (lv : Level) (p : TilePos) :
    (lv.crashed p = true ↔
      lv.n_rows ≤ p.row ∨ lv.n_cols ≤ p.col ∨
        (lv.get_tile_type p ≠ tile_type_e.EMPTY ∧ lv.get_tile_type p ≠ tile_type_e.FOOD)) ∧
    (lv.n_rows ≤ p.row ∨ lv.n_cols ≤ p.col → lv.crashed p = true) := by
  unfold Level.crashed
  by_cases h : lv.n_rows ≤ p.row ∨ lv.n_cols ≤ p.col
  · rw [if_pos h]
    refine ⟨⟨fun _ => ?_, fun _ => rfl⟩, fun _ => rfl⟩
    rcases h with h1 | h2
    · exact Or.inl h1
    · exact Or.inr (Or.inl h2)
  · rw [if_neg h]
    refine ⟨?_, fun hx => absurd hx h⟩
    simp only [decide_eq_true_eq]
    constructor
    · intro hx
      exact Or.inr (Or.inr hx)
    · intro hx
      rcases hx with h1 | h2 | h3
      · exact absurd (Or.inl h1) h
      · exact absurd (Or.inr h2) h
      · exact h3

/-- C4: a logical collision (`input_colision(false, true)`) decrements the
lives counter, then routes to `SNAKE_CRASHED` when lives remain and to
`GAME_OVER` when the decremented count is zero; with one life a single crash
therefore yields `GAME_OVER`. -/
theorem C4_collision_decrements (sim : SnazeSimulation) :
    (sim.input_colision false true).current_life = sim.current_life - 1 ∧
    (0 < sim.current_life - 1 →
      (sim.input_colision false true).current_state = states.SNAKE_CRASHED) ∧
    (sim.current_life - 1 = 0 →
      (sim.input_colision false true).current_state = states.GAME_OVER) := by
  unfold SnazeSimulation.input_colision
  split_ifs with h0 h1 h2 h2 <;>
    simp_all [apply_ite SnazeSimulation.current_life, apply_ite SnazeSimulation.current_state] <;>
    omega

/-- C4 witness: with exactly one life, a single logical collision goes
straight to `GAME_OVER` while decrementing the counter to zero. -/
theorem C4_collision_decrements_witness :
    (({ baseSim with current_life := 1 }).input_colision false true).current_life = 0 ∧
    (({ baseSim with current_life := 1 }).input_colision false true).current_state
      = states.GAME_OVER := by
  refine ⟨?_, ?_⟩
  · have h := (C4_collision_decrements { baseSim with current_life := 1 }).1
    simpa using h
  · have h := (C4_collision_decrements { baseSim with current_life := 1 }).2.2
    exact h (by decide)

/-- C5: when the proposed next head position is blocking, `snake_update`
transitions directly to `GAME_OVER` and changes nothing else: no life is
consumed, and the levels and the agent body are untouched (the returned state
differs from the input only in `current_state`). -/
theorem C5_crash_commit (sim : SnazeSimulation) (k : Nat)
    (hst : sim.current_state = states.SNAKE_THINKING)
    (hcr : sim.cur_level.crashed sim.next_pos = true) :
    sim.snake_update k = { sim with current_state := states.GAME_OVER } := by
  unfold SnazeSimulation.snake_update
  rw [if_neg (by simp [hst]), if_pos hcr]

/-- C5 witness: on `baseSim` with the out-of-bounds proposal (1,0), the commit
goes to `GAME_OVER` with lives, body and grid intact. -/
theorem C5_crash_commit_witness :
    SnazeSimulation.snake_update { baseSim with next_pos := ⟨1, 0⟩ } 0
      = { baseSim with next_pos := ⟨1, 0⟩, current_state := states.GAME_OVER } := by
  exact C5_crash_commit { baseSim with next_pos := ⟨1, 0⟩ } 0 (by decide) (by decide)

/-- `level_up` leaves the lives counter alone. -/
theorem level_up_current_life (sim : SnazeSimulation) :
    sim.level_up.current_life = sim.current_life := by
  unfold SnazeSimulation.level_up
  split_ifs <;> rfl

/-- `level_up` ends in `START_SCREEN` or `GAME_WON`. -/
theorem level_up_state (sim : SnazeSimulation) :
    sim.level_up.current_state = states.START_SCREEN ∨
      sim.level_up.current_state = states.GAME_WON := by
  unfold SnazeSimulation.level_up
  split_ifs
  · exact Or.inl rfl
  · exact Or.inr rfl

/-- C10: a food event (`input_colision` with `food = true`) never decrements
the lives counter and never routes to `SNAKE_CRASHED` or `GAME_OVER`, whatever
the simultaneous collision flag: the food branch takes precedence. -/
theorem C10_food_precedence (sim : SnazeSimulation) (c : Bool) :
    (sim.input_colision true c).current_life = sim.current_life ∧
    ((sim.input_colision true c).current_state = states.SNAKE_CRASHED →
      sim.current_state = states.SNAKE_CRASHED) ∧
    ((sim.input_colision true c).current_state = states.GAME_OVER →
      sim.current_state = states.GAME_OVER) := by
  unfold SnazeSimulation.input_colision
  rw [if_pos rfl]
  dsimp only
  split_ifs with h1
  · refine ⟨?_, ?_, ?_⟩
    · rw [level_up_current_life]
      rfl
    · intro h
      rcases level_up_state _ with hs | hs <;> rw [h] at hs <;> exact states.noConfusion hs
    · intro h
      rcases level_up_state _ with hs | hs <;> rw [h] at hs <;> exact states.noConfusion hs
  · exact ⟨rfl, fun h => h, fun h => h⟩

/-- C10 witness: a food event with the collision flag raised leaves the lives
counter at its value. -/
theorem C10_food_precedence_witness :
    (baseSim.input_colision true true).current_life = baseSim.current_life :=
  (C10_food_precedence baseSim true).1

/-- C2 counterexample: `search_random` can return a direction whose target
cell is a blocking `INV_WALL` (hidden wall).  On `exC2lv`, with the shuffle
yielding right first, the returned direction right leads to (0,2), a hidden
wall, which `crashed` classifies as blocking — `is_valid_position` only
rejects `WALL` tiles and own-body cells. -/
theorem C2_counterexample :
    exC2sn.search_random ⟨0, 1⟩ exC2lv
        [direction.right, direction.up, direction.down, direction.left] = some direction.right ∧
    move ⟨0, 1⟩ direction.right = ⟨0, 2⟩ ∧
    exC2lv.get_tile_type ⟨0, 2⟩ = tile_type_e.INV_WALL ∧
    exC2lv.crashed ⟨0, 2⟩ = true := by decide

/-- C2 (amended): whenever `search_random` returns a direction, the cell one
step from the head in that direction is not a `WALL` tile and is not any
current body segment — the two checks `is_valid_position` actually performs.
(It may be a hidden wall or another blocking tile, and no bounds check is
made; see the counterexample.) -/
theorem C2_search_random_amended (sn : Snake) (head_pos : TilePos) (lv : Level)
    (order : List direction) (d : direction)
    (h : sn.search_random head_pos lv order = some d) :
    lv.get_tile_type (move head_pos d) ≠ tile_type_e.WALL ∧ move head_pos d ∉ sn.body := by
  have hp := List.find?_some h
  unfold Snake.is_valid_position at hp
  by_cases h1 : lv.get_tile_type (move head_pos d) = tile_type_e.WALL
  · rw [if_pos h1] at hp
    cases hp
  · by_cases h2 : move head_pos d ∈ sn.body
    · rw [if_neg h1, if_pos h2] at hp
      cases hp
    · exact ⟨h1, h2⟩

/-- C2 witness: on `exC2lv` the fallback returns right, whose target is
neither a `WALL` tile nor a body segment. -/
theorem C2_search_random_amended_witness :
    exC2lv.get_tile_type (move ⟨0, 1⟩ direction.right) ≠ tile_type_e.WALL ∧
      move ⟨0, 1⟩ direction.right ∉ exC2sn.body :=
  C2_search_random_amended exC2sn ⟨0, 1⟩ exC2lv
    [direction.right, direction.up, direction.down, direction.left] direction.right (by decide)

/-- C7: `place_food` only relocates the food to a cell that is `EMPTY` at the
instant of the call and marks that cell `FOOD`; when no `EMPTY` cell exists it
is a no-op (food location and every tile unchanged).  Rectangularity of the
grid, guaranteed by the `Level` constructor, is the only side condition. -/
theorem C7_place_food (lv : Level) (k : Nat)
    (hrect : ∀ r ∈ lv.m_maze, r.length = lv.n_cols) :
    (lv.empty_spaces = [] → lv.place_food k = lv) ∧
    (lv.empty_spaces ≠ [] →
      lv.get_tile_type ((lv.place_food k).m_food_loc) = tile_type_e.EMPTY ∧
      (lv.place_food k).get_tile_type ((lv.place_food k).m_food_loc) = tile_type_e.FOOD) := by
  constructor
  · intro h
    unfold Level.place_food
    dsimp only
    rw [if_pos h]
  · intro h
    have hmem : lv.empty_spaces.getD (k % lv.empty_spaces.length) ⟨0, 0⟩ ∈ lv.empty_spaces :=
      getD_mod_mem h k _
    obtain ⟨hr, hc, he⟩ := mem_empty_spaces.mp hmem
    have heq : lv.place_food k =
        { lv.set_tile_type tile_type_e.FOOD (lv.empty_spaces.getD (k % lv.empty_spaces.length) ⟨0, 0⟩)
            with m_food_loc := lv.empty_spaces.getD (k % lv.empty_spaces.length) ⟨0, 0⟩ } := by
      unfold Level.place_food
      dsimp only
      rw [if_neg h]
    rw [heq]
    refine ⟨he, ?_⟩
    have hr' : (lv.empty_spaces.getD (k % lv.empty_spaces.length) ⟨0, 0⟩).row < lv.m_maze.length := hr
    have hc' : (lv.empty_spaces.getD (k % lv.empty_spaces.length) ⟨0, 0⟩).col <
        (lv.m_maze.getD (lv.empty_spaces.getD (k % lv.empty_spaces.length) ⟨0, 0⟩).row []).length := by
      rw [row_length_of_rect hrect hr']
      exact hc
    exact get_tile_set_self lv tile_type_e.FOOD _ hr' hc'

/-- C7 witness: on `baseLv` (one empty cell at (0,1)) the food is re-placed
onto that cell: `EMPTY` before, `FOOD` after. -/
theorem C7_place_food_witness :
    baseLv.get_tile_type ((baseLv.place_food 0).m_food_loc) = tile_type_e.EMPTY ∧
    (baseLv.place_food 0).get_tile_type ((baseLv.place_food 0).m_food_loc) = tile_type_e.FOOD :=
  (C7_place_food baseLv 0 (by decide)).2 (by decide)

/-- A food event that does not reach the level target: bump the counter,
recompute the score, clear `found_foods`, nothing else. -/
theorem input_colision_food_no_levelup (s : SnazeSimulation)
    (h : s.current_food + 1 ≠ s.n_food) :
    s.input_colision true false =
      { s with current_food := s.current_food + 1,
               score := s.score + 20 * (s.current_food + 1),
               snake_obj := { s.snake_obj with found_foods := false } } := by
  unfold SnazeSimulation.input_colision SnazeSimulation.update_score
  rw [if_pos rfl]
  dsimp only
  rw [if_neg h]

/-- Characterization of `N` successive sub-target food events: the counter
counts them and the score accumulates `20 * i` for `i = 1..N`. -/
theorem foodEvents_spec (sim : SnazeSimulation) (N : Nat)
    (h0 : sim.current_food = 0) (hN : (N : Int) < sim.n_food) :
    ∀ i, i ≤ N →
      (foodEvents sim i).current_food = i ∧
      (foodEvents sim i).n_food = sim.n_food ∧
      (foodEvents sim i).score = sim.score + 10 * i * (i + 1) := by
  intro i hi
  induction i with
  | zero => simpa [foodEvents] using h0
  | succ n ih =>
    obtain ⟨hf, hnf, hs⟩ := ih (by omega)
    have hne : (foodEvents sim n).current_food + 1 ≠ (foodEvents sim n).n_food := by
      rw [hf, hnf]
      have : ((n : Int) + 1) ≤ (N : Int) := by exact_mod_cast Nat.succ_le_of_lt (by omega)
      omega
    have hstep : foodEvents sim (n + 1) = (foodEvents sim n).input_colision true false := rfl
    rw [hstep, input_colision_food_no_levelup _ hne]
    refine ⟨?_, ?_, ?_⟩
    · dsimp only
      rw [hf]
      push_cast
      ring
    · exact hnf
    · dsimp only
      rw [hs, hf]
      push_cast
      ring

/-- C6: `update_score` adds exactly `20 * current_food` to the score (the
counter having been incremented for the event beforehand); hence the score is
non-decreasing, `N` sub-target food events in one level add
`20 * (1 + 2 + ... + N) = 10 * N * (N + 1)`, and invoking `update_score` twice
for one event adds `40 * current_food`, a different amount than the single
invocation whenever any food was eaten (non-idempotence). -/
theorem C6_update_score (sim : SnazeSimulation) (N : Nat) :
    sim.update_score.score = sim.score + 20 * sim.current_food ∧
    (0 ≤ sim.current_food → sim.score ≤ sim.update_score.score) ∧
    (1 ≤ sim.current_food →
      sim.update_score.update_score.score - sim.score ≠ sim.update_score.score - sim.score) ∧
    (sim.current_food = 0 → (N : Int) < sim.n_food →
      (foodEvents sim N).score = sim.score + 10 * N * (N + 1)) := by
  refine ⟨rfl, ?_, ?_, ?_⟩
  · intro h
    show sim.score ≤ sim.score + 20 * sim.current_food
    omega
  · intro h
    show sim.score + 20 * sim.current_food + 20 * sim.current_food - sim.score ≠
      sim.score + 20 * sim.current_food - sim.score
    omega
  · intro h0 hN
    exact (foodEvents_spec sim N h0 hN N le_rfl).2.2

/-- C6 witness: three food events on `baseSim` (score 0, target 10) yield
score `20 * (1 + 2 + 3) = 120`. -/
theorem C6_update_score_witness : (foodEvents baseSim 3).score = 120 := by
  have h := (C6_update_score baseSim 3).2.2.2 (by decide) (by decide)
  norm_num at h
  exact h

/-- A committed non-crashing step keeps the state in `SNAKE_THINKING` and
changes the body length by one exactly when the proposed cell carried food. -/
theorem snake_update_step (s : SnazeSimulation) (k : Nat)
    (hst : s.current_state = states.SNAKE_THINKING)
    (hcr : s.cur_level.crashed s.next_pos = false) :
    (s.snake_update k).current_state = s.current_state ∧
    (s.snake_update k).snake_obj.body.length =
      s.snake_obj.body.length +
        (if s.cur_level.get_tile_type s.next_pos = tile_type_e.FOOD then 1 else 0) := by
  unfold SnazeSimulation.snake_update
  rw [if_neg (by simp [hst]), if_neg (by simp [hcr])]
  dsimp only
  by_cases hfood : s.cur_level.get_tile_type s.next_pos = tile_type_e.FOOD
  · simp [hfood, SnazeSimulation.setCurLevel]
  · simp [hfood, SnazeSimulation.setCurLevel]

/-- C8: starting from any agent, a collision-free committed run grows the
body by exactly the number of food steps; in particular from a freshly reset
agent (body length 1) the body has `N + 1` segments after `N` food steps
interleaved with any number of non-food steps. -/
theorem C8_body_growth (sim : SnazeSimulation) (steps : List (TilePos × Nat))
    (hst : sim.current_state = states.SNAKE_THINKING)
    (hrun : ValidRun sim steps) :
    (commitRun sim steps).snake_obj.body.length
        = sim.snake_obj.body.length + countFoodSteps sim steps ∧
    (sim.snake_obj.body.length = 1 →
      (commitRun sim steps).snake_obj.body.length = countFoodSteps sim steps + 1) := by
  have main : (commitRun sim steps).snake_obj.body.length
      = sim.snake_obj.body.length + countFoodSteps sim steps := by
    induction steps generalizing sim with
    | nil => simp [commitRun, countFoodSteps]
    | cons pk rest ih =>
      obtain ⟨p, k⟩ := pk
      obtain ⟨hcr, hrest⟩ := hrun
      have hstep := snake_update_step { sim with next_pos := p } k hst hcr
      have hst' : (SnazeSimulation.snake_update { sim with next_pos := p } k).current_state
          = states.SNAKE_THINKING := by
        rw [hstep.1]
        exact hst
      have hstep2 : (SnazeSimulation.snake_update { sim with next_pos := p } k).snake_obj.body.length
          = sim.snake_obj.body.length +
            (if sim.cur_level.get_tile_type p = tile_type_e.FOOD then 1 else 0) := hstep.2
      have hrec := ih (SnazeSimulation.snake_update { sim with next_pos := p } k) hst' hrest
      show (commitRun (SnazeSimulation.snake_update { sim with next_pos := p } k) rest).snake_obj.body.length =
        sim.snake_obj.body.length +
          ((if sim.cur_level.get_tile_type p = tile_type_e.FOOD then 1 else 0) +
            countFoodSteps (SnazeSimulation.snake_update { sim with next_pos := p } k) rest)
      rw [hrec, hstep2]
      omega
  exact ⟨main, fun h1 => by omega⟩

/-- C8 witness: on `baseSim`, one non-food step to (0,1) then one food step to
(0,2) leave the body with two segments. -/
theorem C8_body_growth_witness :
    (commitRun baseSim [(⟨0, 1⟩, 0), (⟨0, 2⟩, 5)]).snake_obj.body.length = 2 := by
  have h := (C8_body_growth baseSim [(⟨0, 1⟩, 0), (⟨0, 2⟩, 5)] (by decide)
      ⟨by decide, by decide, trivial⟩).2 (by decide)
  rw [h]
  decide

/-- A collision event without food leaves levels, snake and the level/food
bookkeeping untouched (only lives and state may change). -/
theorem input_colision_false_frame (s : SnazeSimulation) (c : Bool) :
    (s.input_colision false c).levels = s.levels ∧
    (s.input_colision false c).snake_obj = s.snake_obj ∧
    (s.input_colision false c).current_food = s.current_food ∧
    (s.input_colision false c).n_food = s.n_food ∧
    (s.input_colision false c).current_level_index = s.current_level_index := by
  unfold SnazeSimulation.input_colision
  rw [if_neg (by simp)]
  dsimp only
  split_ifs <;> exact ⟨rfl, rfl, rfl, rfl, rfl⟩

/-- `troca` leaves levels, the whole snake and the level/food bookkeeping
untouched (it only writes `next_dir`/`next_pos` or signals a logical
collision). -/
theorem troca_frame (s : SnazeSimulation) (order : List direction) :
    (s.troca order).levels = s.levels ∧
    (s.troca order).snake_obj = s.snake_obj ∧
    (s.troca order).current_food = s.current_food ∧
    (s.troca order).n_food = s.n_food ∧
    (s.troca order).current_level_index = s.current_level_index := by
  unfold SnazeSimulation.troca
  cases s.snake_obj.search_random s.head_pos s.cur_level order with
  | some d => exact ⟨rfl, rfl, rfl, rfl, rfl⟩
  | none => exact input_colision_false_frame s true

/-- A food event that does not advance the level (counter short of the target,
or no further level) leaves levels and the snake body and the two non-food
flags untouched. -/
theorem input_colision_true_frame (s : SnazeSimulation) (c : Bool)
    (hno : ¬(s.current_food + 1 = s.n_food ∧
      s.current_level_index + 1 < (s.levels.length : Int))) :
    (s.input_colision true c).levels = s.levels ∧
    (s.input_colision true c).snake_obj.body = s.snake_obj.body ∧
    (s.input_colision true c).snake_obj.collision = s.snake_obj.collision ∧
    (s.input_colision true c).snake_obj.wall_collision = s.snake_obj.wall_collision ∧
    (s.input_colision true c).next_pos = s.next_pos := by
  unfold SnazeSimulation.input_colision
  rw [if_pos rfl]
  dsimp only
  split_ifs with h1
  · have h1' : s.current_food + 1 = s.n_food := h1
    unfold SnazeSimulation.level_up
    dsimp only
    split_ifs with hlt
    · have hlt' : s.current_level_index + 1 < (s.levels.length : Int) := hlt
      exact absurd ⟨h1', hlt'⟩ hno
    · exact ⟨rfl, rfl, rfl, rfl, rfl⟩
  · exact ⟨rfl, rfl, rfl, rfl, rfl⟩

/-- C9 counterexample: an invocation of `breadthFirst_search` CAN mutate grid
tiles and the agent body.  On `exC9sim` the food is adjacent to the head and
one food completes the level target with a further level available, so the
BFS run signals `input_colision(true, _)`, which levels up, resets the body
and rewrites tiles of the next level. -/
theorem C9_counterexample :
    (exC9sim.breadthFirst_search
        [direction.up, direction.right, direction.down, direction.left]).snake_obj.body
      ≠ exC9sim.snake_obj.body ∧
    (exC9sim.breadthFirst_search
        [direction.up, direction.right, direction.down, direction.left]).levels
      ≠ exC9sim.levels := by decide

/-- C9 (amended): provided the food event it may signal does not complete the
level target with a further level available (`level_up` respawn), an
invocation of `breadthFirst_search` mutates no grid tile and no body segment,
and of the agent state it only touches the two transient flags — in a
`SNAKE_THINKING` run `collision` is cleared at the start and stays cleared. -/
theorem bfs_tail_frame (s3 : SnazeSimulation) (found : Bool) (nm floc : TilePos)
    (hno3 : ¬(s3.current_food + 1 = s3.n_food ∧
      s3.current_level_index + 1 < (s3.levels.length : Int))) :
    (if found = true then
        (if nm = floc then
          SnazeSimulation.input_colision { s3 with next_pos := nm } true
            ({ s3 with next_pos := nm }).snake_obj.collision
        else { s3 with next_pos := nm })
      else s3).levels = s3.levels ∧
    (if found = true then
        (if nm = floc then
          SnazeSimulation.input_colision { s3 with next_pos := nm } true
            ({ s3 with next_pos := nm }).snake_obj.collision
        else { s3 with next_pos := nm })
      else s3).snake_obj.body = s3.snake_obj.body ∧
    (if found = true then
        (if nm = floc then
          SnazeSimulation.input_colision { s3 with next_pos := nm } true
            ({ s3 with next_pos := nm }).snake_obj.collision
        else { s3 with next_pos := nm })
      else s3).snake_obj.collision = s3.snake_obj.collision ∧
    (if found = true then
        (if nm = floc then
          SnazeSimulation.input_colision { s3 with next_pos := nm } true
            ({ s3 with next_pos := nm }).snake_obj.collision
        else { s3 with next_pos := nm })
      else s3).snake_obj.wall_collision = s3.snake_obj.wall_collision := by
  by_cases hfound : found = true
  · rw [if_pos hfound]
    by_cases hfloc : nm = floc
    · rw [if_pos hfloc]
      obtain ⟨hf1, hf2, hf3, hf4, hf5⟩ :=
        input_colision_true_frame { s3 with next_pos := nm }
          ({ s3 with next_pos := nm }).snake_obj.collision (by exact hno3)
      exact ⟨hf1, hf2, hf3, hf4⟩
    · rw [if_neg hfloc]
      exact ⟨rfl, rfl, rfl, rfl⟩
  · rw [if_neg hfound]
    exact ⟨rfl, rfl, rfl, rfl⟩

theorem C9_bfs_frame (sim : SnazeSimulation) (order : List direction)
    (hno : ¬(sim.current_food + 1 = sim.n_food ∧
      sim.current_level_index + 1 < (sim.levels.length : Int))) :
    (sim.breadthFirst_search order).levels = sim.levels ∧
    (sim.breadthFirst_search order).snake_obj.body = sim.snake_obj.body ∧
    (sim.breadthFirst_search order).snake_obj.wall_collision = sim.snake_obj.wall_collision ∧
    (sim.current_state = states.SNAKE_THINKING →
      (sim.breadthFirst_search order).snake_obj.collision = false) := by
  unfold SnazeSimulation.breadthFirst_search
  by_cases hst : sim.current_state = states.SNAKE_THINKING
  · rw [if_neg (by simp [hst])]
    dsimp only
    generalize bfsLoop sim.cur_level (sim.cur_level.n_rows * sim.cur_level.n_cols + 1)
      { fila := [sim.head_pos], visit := visitSet (mkVisit sim.cur_level) sim.head_pos,
        pmap := fun _ => none } = r
    generalize Snake.found_food true (r.1.getD ⟨0, 0⟩) r.2.pmap sim.cur_level sim.head_pos = nm
    set R : SnazeSimulation :=
      { sim with snake_obj :=
          { body := sim.snake_obj.body, found_foods := r.1.isSome, collision := false,
            wall_collision := sim.snake_obj.wall_collision } } with hR
    by_cases hfila : r.2.fila = []
    · rw [if_pos hfila]
      obtain ⟨ht1, ht2, ht3, ht4, ht5⟩ := troca_frame R order
      have hno3 : ¬((SnazeSimulation.troca R order).current_food + 1
            = (SnazeSimulation.troca R order).n_food ∧
          (SnazeSimulation.troca R order).current_level_index + 1
            < ((SnazeSimulation.troca R order).levels.length : Int)) := by
        rw [ht3, ht4, ht5, ht1]
        exact hno
      obtain ⟨hl, hb, hc, hw⟩ := bfs_tail_frame (SnazeSimulation.troca R order)
        r.1.isSome nm sim.cur_level.get_food_loc hno3
      refine ⟨?_, ?_, ?_, fun _ => ?_⟩
      · rw [hl, ht1]
      · rw [hb, ht2]
      · rw [hw, ht2]
      · rw [hc, ht2]
    · rw [if_neg hfila]
      obtain ⟨hl, hb, hc, hw⟩ := bfs_tail_frame R
        r.1.isSome nm sim.cur_level.get_food_loc (by exact hno)
      refine ⟨?_, ?_, ?_, fun _ => ?_⟩
      · rw [hl]
      · rw [hb]
      · rw [hw]
      · rw [hc]
  · rw [if_pos hst]
    exact ⟨rfl, rfl, rfl, fun h => absurd h hst⟩

/-- C9 witness: on `baseSim` (target 10, counter 0) a BFS invocation leaves
levels and body intact and ends with a cleared collision flag. -/
theorem C9_bfs_frame_witness :
    (baseSim.breadthFirst_search
        [direction.up, direction.right, direction.down, direction.left]).levels = baseSim.levels ∧
    (baseSim.breadthFirst_search
        [direction.up, direction.right, direction.down, direction.left]).snake_obj.body
      = baseSim.snake_obj.body := by
  have h := C9_bfs_frame baseSim
    [direction.up, direction.right, direction.down, direction.left] (by decide)
  exact ⟨h.1, h.2.1⟩

/-! Support for the BFS correctness claim: list-level lemmas about `getD`,
`set` and counting, and the basic theory of `ReachI`/`IsDistAt`. -/

theorem getD_set_ne {α : Type} (l : List α) (i j : Nat) (a d : α) (h : i ≠ j) :
    (l.set i a).getD j d = l.getD j d := by
  rcases Nat.lt_or_ge j l.length with hj | hj
  · have h1 : j < (l.set i a).length := by simpa using hj
    rw [List.getD_eq_getElem _ _ h1, List.getD_eq_getElem _ _ hj]
    exact List.getElem_set_ne h h1
  · rw [List.getD_eq_default _ _ (by simpa using hj), List.getD_eq_default _ _ hj]

theorem getD_set_self {α : Type} (l : List α) (i : Nat) (a d : α) (h : i < l.length) :
    (l.set i a).getD i d = a := by
  have h1 : i < (l.set i a).length := by simpa using h
  rw [List.getD_eq_getElem _ _ h1]
  exact List.getElem_set_self h1

theorem visitGet_true_bounds {v : List (List Bool)} {p : TilePos}
    (h : visitGet v p = true) : p.row < v.length ∧ p.col < (v.getD p.row []).length := by
  unfold visitGet at h
  rcases Nat.lt_or_ge p.row v.length with hr | hr
  · refine ⟨hr, ?_⟩
    rcases Nat.lt_or_ge p.col (v.getD p.row []).length with hc | hc
    · exact hc
    · rw [List.getD_eq_default _ _ hc] at h
      cases h
  · exfalso
    rw [List.getD_eq_default _ _ hr, List.getD_eq_default _ _ (Nat.zero_le _)] at h
    cases h

theorem visitGet_visitSet_self {v : List (List Bool)} {p : TilePos}
    (hr : p.row < v.length) (hc : p.col < (v.getD p.row []).length) :
    visitGet (visitSet v p) p = true := by
  unfold visitGet visitSet
  rw [getD_set_self _ _ _ _ hr]
  exact getD_set_self _ _ _ _ hc

theorem visitGet_visitSet_other {v : List (List Bool)} {p q : TilePos} (h : q ≠ p) :
    visitGet (visitSet v p) q = visitGet v q := by
  unfold visitGet visitSet
  by_cases hrow : p.row = q.row
  · have hcol : p.col ≠ q.col := by
      intro hcol
      exact h (by cases p; cases q; simp_all)
    rw [← hrow]
    rcases Nat.lt_or_ge p.row v.length with hr | hr
    · rw [getD_set_self _ _ _ _ hr]
      exact getD_set_ne _ _ _ _ _ hcol
    · rw [List.set_eq_of_length_le hr]
  · rw [getD_set_ne _ _ _ _ _ hrow]

theorem visitGet_visitSet_mono {v : List (List Bool)} {p q : TilePos}
    (h : visitGet v q = true) : visitGet (visitSet v p) q = true := by
  by_cases hq : q = p
  · subst hq
    obtain ⟨hr, hc⟩ := visitGet_true_bounds h
    exact visitGet_visitSet_self hr hc
  · rw [visitGet_visitSet_other hq]
    exact h

theorem count_false_set_true (row : List Bool) (c : Nat) (hc : c < row.length)
    (hf : row.getD c false = false) :
    (row.set c true).count false + 1 = row.count false := by
  induction row generalizing c with
  | nil => exact absurd hc (Nat.not_lt_zero c)
  | cons b rest ih =>
    cases c with
    | zero =>
      have hb : b = false := by simpa using hf
      subst hb
      simp [List.count_cons]
    | succ c' =>
      have := ih c' (by simpa using hc) (by simpa using hf)
      simp only [List.set_cons_succ, List.count_cons]
      omega

theorem countFalse_set (l : List (List Bool)) (i c : Nat) (hi : i < l.length)
    (hc : c < (l.getD i []).length) (hf : (l.getD i []).getD c false = false) :
    countFalse (l.set i ((l.getD i []).set c true)) + 1 = countFalse l := by
  induction l generalizing i with
  | nil => exact absurd hi (Nat.not_lt_zero i)
  | cons row rest ih =>
    cases i with
    | zero =>
      simp only [List.getD_cons_zero] at hc hf ⊢
      unfold countFalse
      simp only [List.set_cons_zero, List.map_cons, List.sum_cons]
      have := count_false_set_true row c hc hf
      omega
    | succ i' =>
      simp only [List.getD_cons_succ] at hc hf ⊢
      have := ih i' (by simpa using hi) hc hf
      unfold countFalse at this ⊢
      simp only [List.set_cons_succ, List.map_cons, List.sum_cons]
      omega

theorem countFalse_visitSet {v : List (List Bool)} {p : TilePos}
    (hr : p.row < v.length) (hc : p.col < (v.getD p.row []).length)
    (hf : visitGet v p = false) :
    countFalse (visitSet v p) + 1 = countFalse v :=
  countFalse_set v p.row p.col hr hc hf

theorem countFalse_mkVisit (lv : Level) : countFalse (mkVisit lv) = lv.n_rows * lv.n_cols := by
  unfold countFalse mkVisit
  simp [List.map_replicate, List.sum_replicate, List.count_replicate, smul_eq_mul]

theorem linKey_inj {cols : Nat} {p q : TilePos} (hp : p.col < cols) (hq : q.col < cols)
    (h : linKey cols p = linKey cols q) : p = q := by
  unfold linKey at h
  have hcols : 0 < cols := Nat.lt_of_le_of_lt (Nat.zero_le _) hp
  rw [Nat.mul_comm p.row cols, Nat.mul_comm q.row cols] at h
  have hrow : p.row = q.row := by
    have h1 : (cols * p.row + p.col) / cols = (cols * q.row + q.col) / cols := by rw [h]
    rw [Nat.mul_add_div hcols, Nat.mul_add_div hcols, Nat.div_eq_of_lt hp,
      Nat.div_eq_of_lt hq] at h1
    simpa using h1
  have hcol : p.col = q.col := by
    have h2 : (cols * p.row + p.col) % cols = (cols * q.row + q.col) % cols := by rw [h]
    rw [Nat.mul_add_mod, Nat.mul_add_mod, Nat.mod_eq_of_lt hp, Nat.mod_eq_of_lt hq] at h2
    exact h2
  cases p
  cases q
  simp_all

theorem mem_cells {lv : Level} {p : TilePos} :
    p ∈ cells lv ↔ p.row < lv.n_rows ∧ p.col < lv.n_cols := by
  unfold cells
  simp only [List.mem_flatMap, List.mem_map, List.mem_range]
  constructor
  · rintro ⟨i, hi, j, hj, rfl⟩
    exact ⟨hi, hj⟩
  · rintro ⟨h1, h2⟩
    exact ⟨p.row, h1, p.col, h2, rfl⟩

theorem length_cells (lv : Level) : (cells lv).length = lv.n_rows * lv.n_cols := by
  unfold cells
  rw [List.length_flatMap]
  simp [Function.comp_def, List.map_const]

theorem reachI_zero_inv {lv : Level} {start p : TilePos} (h : ReachI lv start 0 p) :
    p = start := by
  cases h
  rfl

theorem reach_bounds {lv : Level} {start p : TilePos} {n : Nat} (h : ReachI lv start n p) :
    p = start ∨ (p.row < lv.n_rows ∧ p.col < lv.n_cols) := by
  cases h with
  | zero => exact Or.inl rfl
  | succ hr hs => exact Or.inr ⟨hs.2.1, hs.2.2.1⟩

theorem reachExact_iff {lv : Level} {start : TilePos} :
    ∀ {n : Nat} {p : TilePos}, reachExact lv start n p = true ↔ ReachI lv start n p := by
  intro n
  induction n with
  | zero =>
    intro p
    constructor
    · intro h
      have := of_decide_eq_true h
      subst this
      exact ReachI.zero
    · intro h
      exact decide_eq_true (reachI_zero_inv h)
  | succ n ih =>
    intro p
    unfold reachExact
    rw [List.any_eq_true]
    constructor
    · rintro ⟨x, hx, hb⟩
      rw [Bool.and_eq_true, decide_eq_true_eq] at hb
      exact ReachI.succ (ih.mp hb.1) hb.2
    · intro h
      cases h with
      | @succ n pr p hr hs =>
        refine ⟨pr, ?_, ?_⟩
        · rcases reach_bounds hr with h1 | h2
          · rw [h1]
            exact List.mem_cons_self _ _
          · exact List.mem_cons_of_mem _ (mem_cells.mpr h2)
        · rw [Bool.and_eq_true, decide_eq_true_eq]
          exact ⟨ih.mpr hr, hs⟩

theorem isDistAt_start (lv : Level) (start : TilePos) : IsDistAt lv start start 0 :=
  ⟨ReachI.zero, fun m hm => absurd hm (Nat.not_lt_zero m)⟩

theorem isDistAt_unique {lv : Level} {start p : TilePos} {j j' : Nat}
    (h1 : IsDistAt lv start p j) (h2 : IsDistAt lv start p j') : j = j' := by
  rcases Nat.lt_trichotomy j j' with h | h | h
  · exact absurd h1.1 (h2.2 j h)
  · exact h
  · exact absurd h2.1 (h1.2 j' h)

theorem isDistAt_zero_eq {lv : Level} {start p : TilePos} (h : IsDistAt lv start p 0) :
    p = start :=
  reachI_zero_inv h.1

theorem isDistAt_pos_ne_start {lv : Level} {start p : TilePos} {j : Nat}
    (h : IsDistAt lv start p (j + 1)) : p ≠ start := by
  intro he
  subst he
  exact h.2 0 (Nat.succ_pos j) ReachI.zero

theorem exists_isDistAt {lv : Level} {start p : TilePos} {n : Nat} (h : ReachI lv start n p) :
    ∃ j, j ≤ n ∧ IsDistAt lv start p j := by
  induction n using Nat.strong_induction_on with
  | _ n ih =>
    by_cases hmin : ∀ m, m < n → ¬ReachI lv start m p
    · exact ⟨n, le_rfl, h, hmin⟩
    · push_neg at hmin
      obtain ⟨m, hm, hr⟩ := hmin
      obtain ⟨j, hj, hd⟩ := ih m hm hr
      exact ⟨j, Nat.le_trans hj (Nat.le_of_lt hm), hd⟩

theorem isDistAt_succ_pred {lv : Level} {start p : TilePos} {j : Nat}
    (h : IsDistAt lv start p (j + 1)) :
    ∃ pr, IsDistAt lv start pr j ∧ validStep lv pr p := by
  obtain ⟨h1, h2⟩ := h
  cases h1 with
  | @succ n pr p hr hs =>
    refine ⟨pr, ⟨hr, ?_⟩, hs⟩
    intro m hm hrm
    exact h2 (m + 1) (by omega) (ReachI.succ hrm hs)

theorem isDistAt_layers {lv : Level} {start p : TilePos} {j : Nat}
    (h : IsDistAt lv start p j) : ∀ i, i ≤ j → ∃ q, IsDistAt lv start q i := by
  induction j generalizing p with
  | zero =>
    intro i hi
    have : i = 0 := Nat.le_zero.mp hi
    subst this
    exact ⟨start, isDistAt_start lv start⟩
  | succ j' ih =>
    intro i hi
    rcases Nat.lt_or_ge i (j' + 1) with h1 | h1
    · obtain ⟨pr, hpr, _⟩ := isDistAt_succ_pred h
      exact ih hpr i (by omega)
    · have : i = j' + 1 := by omega
      subst this
      exact ⟨p, h⟩

theorem reachI_front {lv : Level} {start c p : TilePos} {m : Nat}
    (hs : validStep lv start c) (h : ReachI lv c m p) : ReachI lv start (m + 1) p := by
  induction h with
  | zero => exact ReachI.succ ReachI.zero hs
  | succ hr hstep ih => exact ReachI.succ ih hstep

theorem isDistAt_le_card {lv : Level} {start p : TilePos} {j : Nat}
    (hr : start.row < lv.n_rows) (hc : start.col < lv.n_cols)
    (h : IsDistAt lv start p j) : j ≤ lv.n_rows * lv.n_cols := by
  have hex : ∀ i : Fin (j + 1), ∃ q, IsDistAt lv start q i.val :=
    fun i => isDistAt_layers h i.val (by omega)
  choose f hf using hex
  have hinj : Set.InjOn f (Finset.univ : Finset (Fin (j + 1))) := by
    intro a _ b _ hab
    have h1 := hf a
    rw [hab] at h1
    exact Fin.ext (isDistAt_unique h1 (hf b))
  have hmem : ∀ a ∈ (Finset.univ : Finset (Fin (j + 1))), f a ∈ (start :: cells lv).toFinset := by
    intro a _
    rw [List.mem_toFinset]
    rcases reach_bounds (hf a).1 with h1 | h2
    · rw [h1]
      exact List.mem_cons_self _ _
    · exact List.mem_cons_of_mem _ (mem_cells.mpr h2)
  have hcard := Finset.card_le_card_of_injOn f hmem hinj
  rw [Finset.card_univ, Fintype.card_fin] at hcard
  have h2 : (start :: cells lv).toFinset.card ≤ (start :: cells lv).length :=
    List.toFinset_card_le _
  have h3 : (start :: cells lv).length = lv.n_rows * lv.n_cols + 1 := by
    simp [length_cells]
  omega

/-! The BFS loop invariant: preservation under one neighbour expansion, under
the whole four-direction expansion, and the pop/close-out bookkeeping. -/

theorem vis_bounds_of_shape {lv : Level} {v : List (List Bool)} (h1 : v.length = lv.n_rows)
    (h2 : ∀ r ∈ v, r.length = lv.n_cols) {p : TilePos} (h : visitGet v p = true) :
    p.row < lv.n_rows ∧ p.col < lv.n_cols := by
  obtain ⟨ha, hb⟩ := visitGet_true_bounds h
  refine ⟨h1 ▸ ha, ?_⟩
  have hmem : v.getD p.row [] ∈ v := by
    rw [List.getD_eq_getElem _ _ ha]
    exact List.getElem_mem ha
  rw [h2 _ hmem] at hb
  exact hb

theorem expandDir_pres {lv : Level} {start curr : TilePos} {k : Nat} {st : BfsSt} (i : Fin 4)
    (hinv : ExpInv lv start curr k st) :
    ExpInv lv start curr k (expandDir lv curr st i) ∧
    bfsMeasure (expandDir lv curr st i) = bfsMeasure st := by
  unfold expandDir
  dsimp only
  split_ifs with hguard
  case neg => exact ⟨hinv, rfl⟩
  case pos =>
  obtain ⟨hg1, hg2, hg3, hg4⟩ := hguard
  have hVvalid : validStep lv curr (nbr curr i) := ⟨⟨i, rfl⟩, hg1, hg2, hg4⟩
  have hVdist : IsDistAt lv start (nbr curr i) (k + 1) := by
    constructor
    · exact ReachI.succ hinv.currDist.1 hVvalid
    · intro m hm hrm
      have := hinv.frontier (nbr curr i) hg3 m hrm
      omega
  have hVne : ∀ q, visitGet st.visit q = true → q ≠ nbr curr i := by
    intro q hq he
    rw [he, hg3] at hq
    cases hq
  have hVrow : (nbr curr i).row < st.visit.length := by
    rw [hinv.shape_len]
    exact hg1
  have hVcolLen : (nbr curr i).col < (st.visit.getD (nbr curr i).row []).length := by
    have hmem : st.visit.getD (nbr curr i).row [] ∈ st.visit := by
      rw [List.getD_eq_getElem _ _ hVrow]
      exact List.getElem_mem hVrow
    rw [hinv.shape_row _ hmem]
    exact hg2
  have hstart_col : start.col < lv.n_cols :=
    (vis_bounds_of_shape hinv.shape_len hinv.shape_row hinv.visStart).2
  have hkeyV : ∀ q, visitGet st.visit q = true →
      linKey lv.n_cols q ≠ linKey lv.n_cols (nbr curr i) := by
    intro q hq hk
    exact hVne q hq
      (linKey_inj (vis_bounds_of_shape hinv.shape_len hinv.shape_row hq).2 hg2 hk)
  refine ⟨⟨?_, ?_, ?_, ?_, ?_, ?_, ?_, ?_, ?_, ?_, ?_, ?_, ?_, ?_, ?_⟩, ?_⟩
  · -- shape_len
    simpa [visitSet] using hinv.shape_len
  · -- shape_row
    intro r hr
    rcases List.mem_or_eq_of_mem_set hr with h | h
    · exact hinv.shape_row r h
    · rw [h]
      have hmem : st.visit.getD (nbr curr i).row [] ∈ st.visit := by
        rw [List.getD_eq_getElem _ _ hVrow]
        exact List.getElem_mem hVrow
      simpa using hinv.shape_row _ hmem
  · -- visStart
    exact visitGet_visitSet_mono hinv.visStart
  · -- visValid
    intro p hp hne
    by_cases hpV : p = nbr curr i
    · rw [hpV]
      exact hg4
    · rw [visitGet_visitSet_other hpV] at hp
      exact hinv.visValid p hp hne
  · -- pmapStart
    show (if linKey lv.n_cols start = linKey lv.n_cols (nbr curr i) then some curr
      else st.pmap (linKey lv.n_cols start)) = none
    rw [if_neg (hkeyV start hinv.visStart)]
    exact hinv.pmapStart
  · -- chain
    intro p hp hne
    by_cases hpV : p = nbr curr i
    · subst hpV
      refine ⟨k, curr, hVdist, ?_, hVvalid, visitGet_visitSet_mono hinv.currVis,
        hinv.currDist⟩
      show (if linKey lv.n_cols (nbr curr i) = linKey lv.n_cols (nbr curr i) then some curr
        else st.pmap (linKey lv.n_cols (nbr curr i))) = some curr
      rw [if_pos rfl]
    · rw [visitGet_visitSet_other hpV] at hp
      obtain ⟨j, pr, h1, h2, h3, h4, h5⟩ := hinv.chain p hp hne
      refine ⟨j, pr, h1, ?_, h3, visitGet_visitSet_mono h4, h5⟩
      show (if linKey lv.n_cols p = linKey lv.n_cols (nbr curr i) then some curr else _) = _
      rw [if_neg (hkeyV p hp)]
      exact h2
  · -- filaVis
    intro q hq
    rcases List.mem_append.mp hq with h | h
    · exact visitGet_visitSet_mono (hinv.filaVis q h)
    · rw [List.mem_singleton.mp h]
      exact visitGet_visitSet_self hVrow hVcolLen
  · -- filaNodup
    rw [List.nodup_append]
    refine ⟨hinv.filaNodup, List.nodup_singleton _, ?_⟩
    intro q hq hq2
    rw [List.mem_singleton.mp hq2] at hq
    exact hVne _ (hinv.filaVis _ hq) rfl
  · -- window
    obtain ⟨A, B, hsplit, hA, hB⟩ := hinv.window
    refine ⟨A, B ++ [nbr curr i], by rw [hsplit, List.append_assoc], hA, ?_⟩
    intro b hb
    rcases List.mem_append.mp hb with h | h
    · exact hB b h
    · rw [List.mem_singleton.mp h]
      exact hVdist
  · -- closure
    intro p hp hnin hne q hq
    by_cases hpV : p = nbr curr i
    · exfalso
      apply hnin
      rw [hpV]
      exact List.mem_append.mpr (Or.inr (List.mem_singleton.mpr rfl))
    · rw [visitGet_visitSet_other hpV] at hp
      refine visitGet_visitSet_mono (hinv.closure p hp ?_ hne q hq)
      intro hmem
      exact hnin (List.mem_append.mpr (Or.inl hmem))
  · -- notFood
    intro p hp hnin hne
    by_cases hpV : p = nbr curr i
    · exfalso
      apply hnin
      rw [hpV]
      exact List.mem_append.mpr (Or.inr (List.mem_singleton.mpr rfl))
    · rw [visitGet_visitSet_other hpV] at hp
      refine hinv.notFood p hp ?_ hne
      intro hmem
      exact hnin (List.mem_append.mpr (Or.inl hmem))
  · -- currVis
    exact visitGet_visitSet_mono hinv.currVis
  · -- currNotIn
    intro hmem
    rcases List.mem_append.mp hmem with h | h
    · exact hinv.currNotIn h
    · exact hVne curr hinv.currVis (List.mem_singleton.mp h)
  · -- currDist
    exact hinv.currDist
  · -- frontier
    intro p hp m hrm
    have hp' : visitGet st.visit p = false := by
      by_cases hold : visitGet st.visit p = true
      · rw [visitGet_visitSet_mono hold] at hp
        cases hp
      · simpa using hold
    exact hinv.frontier p hp' m hrm
  · -- measure
    unfold bfsMeasure
    have := countFalse_visitSet hVrow hVcolLen hg3
    simp only [List.length_append, List.length_singleton]
    omega

theorem expand_pres {lv : Level} {start curr : TilePos} {k : Nat} {st : BfsSt}
    (hinv : ExpInv lv start curr k st) :
    ExpInv lv start curr k (expand lv curr st) ∧
    bfsMeasure (expand lv curr st) = bfsMeasure st := by
  unfold expand
  generalize List.finRange 4 = l
  induction l generalizing st with
  | nil => exact ⟨hinv, rfl⟩
  | cons i rest ih =>
    rw [List.foldl_cons]
    obtain ⟨h1, h2⟩ := expandDir_pres i hinv
    obtain ⟨h3, h4⟩ := ih h1
    exact ⟨h3, by rw [h4, h2]⟩

theorem expand_mono_vis {lv : Level} {curr : TilePos} {st : BfsSt} {p : TilePos}
    (l : List (Fin 4)) (h : visitGet st.visit p = true) :
    visitGet (List.foldl (expandDir lv curr) st l).visit p = true := by
  induction l generalizing st with
  | nil => exact h
  | cons i rest ih =>
    rw [List.foldl_cons]
    apply ih
    unfold expandDir
    dsimp only
    split_ifs with hg
    · exact visitGet_visitSet_mono h
    · exact h

theorem expand_covers_aux {lv : Level} {start curr : TilePos} {k : Nat} (i : Fin 4) :
    ∀ (l : List (Fin 4)) (st : BfsSt), ExpInv lv start curr k st → i ∈ l →
      (nbr curr i).row < lv.n_rows → (nbr curr i).col < lv.n_cols →
      lv.crashed (nbr curr i) = false →
      visitGet (List.foldl (expandDir lv curr) st l).visit (nbr curr i) = true := by
  intro l
  induction l with
  | nil =>
    intro st _ h
    cases h
  | cons a rest ih =>
    intro st hinv hmem hb1 hb2 hb3
    rw [List.foldl_cons]
    rcases List.mem_cons.mp hmem with heq | hmem'
    · subst heq
      have hvis : visitGet (expandDir lv curr st i).visit (nbr curr i) = true := by
        unfold expandDir
        dsimp only
        split_ifs with hg
        · have hr : (nbr curr i).row < st.visit.length := by
            rw [hinv.shape_len]
            exact hb1
          have hc : (nbr curr i).col < (st.visit.getD (nbr curr i).row []).length := by
            have hmemrow : st.visit.getD (nbr curr i).row [] ∈ st.visit := by
              rw [List.getD_eq_getElem _ _ hr]
              exact List.getElem_mem hr
            rw [hinv.shape_row _ hmemrow]
            exact hb2
          exact visitGet_visitSet_self hr hc
        · by_cases hv : visitGet st.visit (nbr curr i) = true
          · exact hv
          · exact absurd ⟨hb1, hb2, by simpa using hv, hb3⟩ hg
      exact expand_mono_vis rest hvis
    · exact ih _ (expandDir_pres a hinv).1 hmem' hb1 hb2 hb3

theorem expand_covers {lv : Level} {start curr : TilePos} {k : Nat} {st : BfsSt}
    (hinv : ExpInv lv start curr k st) :
    ∀ q, validStep lv curr q → visitGet (expand lv curr st).visit q = true := by
  intro q hq
  obtain ⟨⟨i, hi⟩, hb1, hb2, hb3⟩ := hq
  subst hi
  exact expand_covers_aux i (List.finRange 4) st hinv (List.mem_finRange i) hb1 hb2 hb3

theorem inv_frontier {lv : Level} {start : TilePos} {st : BfsSt} (hinv : BfsInv lv start st)
    {kmin : Nat} (hq : ∀ q ∈ st.fila, ∃ j, kmin ≤ j ∧ IsDistAt lv start q j) :
    ∀ p, visitGet st.visit p = false → ∀ m, ReachI lv start m p → kmin + 1 ≤ m := by
  intro p hp m
  induction m generalizing p with
  | zero =>
    intro hr
    have := reachI_zero_inv hr
    subst this
    rw [hinv.visStart] at hp
    cases hp
  | succ m ih =>
    intro hr
    cases hr with
    | @succ _ pr _ hrm hs =>
      by_cases hvpr : visitGet st.visit pr = true
      · by_cases hin : pr ∈ st.fila
        · obtain ⟨j, hkj, hdj⟩ := hq pr hin
          have hmj : j ≤ m := by
            by_contra hcon
            push_neg at hcon
            exact absurd hrm (hdj.2 m hcon)
          omega
        · have hvp := hinv.closure pr hvpr hin _ hs
          rw [hvp] at hp
          cases hp
      · have := ih pr (by simpa using hvpr) hrm
        omega

theorem fila_dist {lv : Level} {start : TilePos} {st : BfsSt} (hinv : BfsInv lv start st) :
    ∀ q ∈ st.fila, ∃ j, IsDistAt lv start q j := by
  obtain ⟨k, A, B, hsplit, hA, hB⟩ := hinv.window
  intro q hq
  rw [hsplit] at hq
  rcases List.mem_append.mp hq with h | h
  · exact ⟨k, hA q h⟩
  · exact ⟨k + 1, hB q h⟩

theorem mk_expInv {lv : Level} {start curr : TilePos} {k : Nat} {st : BfsSt}
    {rest : List TilePos}
    (hinv : BfsInv lv start st) (hfila : st.fila = curr :: rest)
    (hcurrDist : IsDistAt lv start curr k)
    (hwin : ∃ A B, rest = A ++ B ∧ (∀ a ∈ A, IsDistAt lv start a k) ∧
      (∀ b ∈ B, IsDistAt lv start b (k + 1)))
    (hfront : ∀ q ∈ st.fila, ∃ j, k ≤ j ∧ IsDistAt lv start q j) :
    ExpInv lv start curr k { st with fila := rest } := by
  have hnodup := hinv.filaNodup
  rw [hfila, List.nodup_cons] at hnodup
  refine ⟨hinv.shape_len, hinv.shape_row, hinv.visStart, hinv.visValid, hinv.pmapStart,
    hinv.chain, ?_, hnodup.2, hwin, ?_, ?_, ?_, hnodup.1, hcurrDist, ?_⟩
  · intro q hq
    exact hinv.filaVis q (by rw [hfila]; exact List.mem_cons_of_mem _ hq)
  · intro p hp hnin hne q hq
    refine hinv.closure p hp ?_ q hq
    rw [hfila]
    intro hmem
    rcases List.mem_cons.mp hmem with h | h
    · exact hne h
    · exact hnin h
  · intro p hp hnin hne
    refine hinv.notFood p hp ?_
    rw [hfila]
    intro hmem
    rcases List.mem_cons.mp hmem with h | h
    · exact hne h
    · exact hnin h
  · exact hinv.filaVis curr (by rw [hfila]; exact List.mem_cons_self _ _)
  · intro p hp m hrm
    exact inv_frontier hinv hfront p hp m hrm

theorem pop_expInv {lv : Level} {start : TilePos} {st : BfsSt} {curr : TilePos}
    {rest : List TilePos} (hinv : BfsInv lv start st) (hfila : st.fila = curr :: rest) :
    ∃ k, ExpInv lv start curr k { st with fila := rest } := by
  obtain ⟨k0, A, B, hsplit, hA, hB⟩ := hinv.window
  cases A with
  | nil =>
    have hB' : B = curr :: rest := by
      rw [hfila] at hsplit
      simpa using hsplit.symm
    refine ⟨k0 + 1, mk_expInv hinv hfila ?_ ?_ ?_⟩
    · exact hB curr (by rw [hB']; exact List.mem_cons_self _ _)
    · refine ⟨rest, [], by simp, ?_, by simp⟩
      intro a ha
      exact hB a (by rw [hB']; exact List.mem_cons_of_mem _ ha)
    · intro q hq
      rw [hsplit] at hq
      exact ⟨k0 + 1, le_rfl, hB q (by simpa using hq)⟩
  | cons a A' =>
    rw [hfila] at hsplit
    simp only [List.cons_append] at hsplit
    injection hsplit with h1 h2
    subst h1
    refine ⟨k0, mk_expInv hinv hfila ?_ ?_ ?_⟩
    · exact hA curr (List.mem_cons_self _ _)
    · exact ⟨A', B, h2, fun x hx => hA x (List.mem_cons_of_mem _ hx), hB⟩
    · intro q hq
      rw [hfila] at hq
      rcases List.mem_cons.mp hq with rfl | hq'
      · exact ⟨k0, le_rfl, hA q (List.mem_cons_self _ _)⟩
      · rw [h2] at hq'
        rcases List.mem_append.mp hq' with h | h
        · exact ⟨k0, le_rfl, hA q (List.mem_cons_of_mem _ h)⟩
        · exact ⟨k0 + 1, by omega, hB q h⟩

theorem expInv_to_inv {lv : Level} {start curr : TilePos} {k : Nat} {st : BfsSt}
    (hinv : ExpInv lv start curr k st)
    (hcov : ∀ q, validStep lv curr q → visitGet st.visit q = true)
    (hnf : lv.get_tile_type curr ≠ tile_type_e.FOOD) :
    BfsInv lv start st := by
  refine ⟨hinv.shape_len, hinv.shape_row, hinv.visStart, hinv.visValid, hinv.pmapStart,
    hinv.chain, hinv.filaVis, hinv.filaNodup, ⟨k, hinv.window⟩, ?_, ?_⟩
  · intro p hp hnin q hq
    by_cases hpc : p = curr
    · subst hpc
      exact hcov q hq
    · exact hinv.closure p hp hnin hpc q hq
  · intro p hp hnin
    by_cases hpc : p = curr
    · subst hpc
      exact hnf
    · exact hinv.notFood p hp hnin hpc

theorem inv_complete {lv : Level} {start : TilePos} {st : BfsSt} (hinv : BfsInv lv start st)
    (hfila : st.fila = []) :
    ∀ m p, ReachI lv start m p → visitGet st.visit p = true := by
  intro m
  induction m with
  | zero =>
    intro p hr
    rw [reachI_zero_inv hr]
    exact hinv.visStart
  | succ m ih =>
    intro p hr
    cases hr with
    | @succ _ pr _ hrm hs =>
      have hvpr := ih pr hrm
      exact hinv.closure pr hvpr (by rw [hfila]; exact List.not_mem_nil pr) p hs

theorem chain_to_chainD {lv : Level} {start : TilePos} {st : BfsSt}
    (hinv : BfsInv lv start st) :
    ∀ (j : Nat) (p : TilePos), visitGet st.visit p = true → IsDistAt lv start p j →
      ChainD lv start st.pmap p j := by
  intro j
  induction j with
  | zero =>
    intro p _ hd
    exact isDistAt_zero_eq hd
  | succ j ih =>
    intro p hp hd
    have hne := isDistAt_pos_ne_start hd
    obtain ⟨j', pr, h1, h2, h3, h4, h5⟩ := hinv.chain p hp hne
    have hjj : j' = j := by
      have := isDistAt_unique h1 hd
      omega
    subst hjj
    exact ⟨hd, pr, h2, h3, ih pr h4 h5⟩

theorem bfsLoop_spec {lv : Level} {start : TilePos} :
    ∀ (fuel : Nat) (st : BfsSt), BfsInv lv start st → bfsMeasure st ≤ fuel →
      (∀ f stf, bfsLoop lv fuel st = (some f, stf) →
        lv.get_tile_type f = tile_type_e.FOOD ∧
        stf.pmap (linKey lv.n_cols start) = none ∧
        ∃ j, IsDistAt lv start f j ∧ ChainD lv start stf.pmap f j) ∧
      (∀ stf, bfsLoop lv fuel st = (none, stf) →
        ∀ p m, ReachI lv start m p → lv.get_tile_type p ≠ tile_type_e.FOOD) := by
  intro fuel
  induction fuel with
  | zero =>
    intro st hinv hM
    constructor
    · intro f stf heq
      simp [bfsLoop] at heq
    · intro stf _ p m hr
      have hfila : st.fila = [] := by
        have : st.fila.length = 0 := by
          unfold bfsMeasure at hM
          omega
        exact List.length_eq_zero.mp this
      exact hinv.notFood p (inv_complete hinv hfila m p hr)
        (by rw [hfila]; exact List.not_mem_nil p)
  | succ fuel ih =>
    intro st hinv hM
    rcases hfe : st.fila with _ | ⟨curr, rest⟩
    · constructor
      · intro f stf heq
        simp [bfsLoop, hfe] at heq
      · intro stf _ p m hr
        exact hinv.notFood p (inv_complete hinv hfe m p hr)
          (by rw [hfe]; exact List.not_mem_nil p)
    · by_cases hfood : lv.get_tile_type curr = tile_type_e.FOOD
      · constructor
        · intro f stf heq
          have heval : bfsLoop lv (fuel + 1) st = (some curr, { st with fila := rest }) := by
            conv_lhs => unfold bfsLoop
            rw [hfe]
            dsimp only
            rw [if_pos hfood]
          rw [heval] at heq
          have hfc : curr = f := by
            have := congrArg Prod.fst heq
            simpa using this
          subst hfc
          have hvis : visitGet st.visit curr = true :=
            hinv.filaVis curr (by rw [hfe]; exact List.mem_cons_self _ _)
          obtain ⟨j, hj⟩ := fila_dist hinv curr (by rw [hfe]; exact List.mem_cons_self _ _)
          have hstf : ({ st with fila := rest } : BfsSt) = stf := by
            have := congrArg Prod.snd heq
            simpa using this
          refine ⟨hfood, ?_, j, hj, ?_⟩
          · rw [← hstf]
            exact hinv.pmapStart
          · rw [← hstf]
            exact chain_to_chainD hinv j curr hvis hj
        · intro stf heq
          have heval : bfsLoop lv (fuel + 1) st = (some curr, { st with fila := rest }) := by
            conv_lhs => unfold bfsLoop
            rw [hfe]
            dsimp only
            rw [if_pos hfood]
          rw [heval] at heq
          cases heq
      · obtain ⟨k, hexp⟩ := pop_expInv hinv hfe
        obtain ⟨hexp', hMeq⟩ := expand_pres hexp
        have hcov := expand_covers hexp
        have hinv' := expInv_to_inv hexp' hcov hfood
        have hM' : bfsMeasure (expand lv curr { st with fila := rest }) ≤ fuel := by
          rw [hMeq]
          unfold bfsMeasure at hM ⊢
          rw [hfe] at hM
          simp only [List.length_cons] at hM
          simpa using Nat.le_of_succ_le_succ (by omega)
        have heval : bfsLoop lv (fuel + 1) st
            = bfsLoop lv fuel (expand lv curr { st with fila := rest }) := by
          conv_lhs => unfold bfsLoop
          rw [hfe]
          dsimp only
          rw [if_neg hfood]
        rw [heval]
        exact ih _ hinv' hM'

theorem found_food_loop_spec {lv : Level} {start : TilePos} {P : Nat → Option TilePos} :
    ∀ (j : Nat) (f : TilePos), ChainD lv start P f (j + 1) →
      ∀ fuel, j + 1 ≤ fuel →
        ∃ c, found_food_loop P lv.n_cols start fuel f = some c ∧
          IsDistAt lv start c 1 ∧ validStep lv start c ∧ ReachI lv c j f := by
  intro j
  induction j with
  | zero =>
    intro f hch fuel hfuel
    obtain ⟨hd, pr, hP, hstep, hch0⟩ := hch
    have hpr : pr = start := hch0
    subst hpr
    obtain ⟨fuel', rfl⟩ : ∃ fuel', fuel = fuel' + 1 := ⟨fuel - 1, by omega⟩
    refine ⟨f, ?_, hd, hstep, ReachI.zero⟩
    unfold found_food_loop
    rw [hP]
    simp
  | succ j ih =>
    intro f hch fuel hfuel
    obtain ⟨hd, pr, hP, hstep, hchp⟩ := hch
    have hprd : IsDistAt lv start pr (j + 1) := hchp.1
    have hprne : pr ≠ start := isDistAt_pos_ne_start hprd
    obtain ⟨fuel', rfl⟩ : ∃ fuel', fuel = fuel' + 1 := ⟨fuel - 1, by omega⟩
    obtain ⟨c, hloop, hc1, hc2, hc3⟩ := ih pr hchp fuel' (by omega)
    refine ⟨c, ?_, hc1, hc2, ReachI.succ hc3 hstep⟩
    unfold found_food_loop
    rw [hP]
    simp only [Option.getD_some]
    rw [if_neg hprne]
    exact hloop

theorem found_food_value {lv : Level} {start : TilePos} {P : Nat → Option TilePos}
    {f : TilePos} {j : Nat} (hch : ChainD lv start P f j)
    (hstart_none : P (linKey lv.n_cols start) = none)
    (hj : j ≤ lv.n_rows * lv.n_cols) :
    (j = 0 → Snake.found_food true f P lv start = f ∧ f = start) ∧
    (1 ≤ j → ∃ c, Snake.found_food true f P lv start = c ∧
      IsDistAt lv start c 1 ∧ validStep lv start c ∧ ReachI lv c (j - 1) f) := by
  constructor
  · intro hj0
    subst hj0
    have hfs : f = start := hch
    refine ⟨?_, hfs⟩
    unfold Snake.found_food
    rw [if_pos rfl, if_pos (by rw [hfs]; exact hstart_none)]
  · intro hj1
    obtain ⟨j', rfl⟩ : ∃ j', j = j' + 1 := ⟨j - 1, by omega⟩
    obtain ⟨hd, pr, hP, hstep, hchp⟩ := hch
    obtain ⟨c, hloop, hc1, hc2, hc3⟩ :=
      found_food_loop_spec j' f ⟨hd, pr, hP, hstep, hchp⟩ (lv.n_rows * lv.n_cols + 1)
        (by omega)
    refine ⟨c, ?_, hc1, hc2, by simpa using hc3⟩
    unfold Snake.found_food
    rw [if_pos rfl, if_neg (by rw [hP]; simp), hloop]
    rfl

/-! Assembly of the shortest-path claim on `breadthFirst_search`. -/

theorem visitGet_mkVisit (lv : Level) (p : TilePos) : visitGet (mkVisit lv) p = false := by
  unfold visitGet mkVisit
  rcases Nat.lt_or_ge p.row lv.n_rows with h1 | h1
  · have e1 : (List.replicate lv.n_rows (List.replicate lv.n_cols false)).getD p.row
        ([] : List Bool) = List.replicate lv.n_cols false := by
      rw [List.getD_eq_getElem _ _ (by simpa using h1)]
      simp
    rw [e1]
    rcases Nat.lt_or_ge p.col lv.n_cols with h2 | h2
    · rw [List.getD_eq_getElem _ _ (by simpa using h2)]
      simp
    · exact List.getD_eq_default _ _ (by simpa using h2)
  · have e1 : (List.replicate lv.n_rows (List.replicate lv.n_cols false)).getD p.row
        ([] : List Bool) = ([] : List Bool) :=
      List.getD_eq_default _ _ (by simpa using h1)
    rw [e1]
    exact List.getD_eq_default _ _ (Nat.zero_le _)

theorem bfs_init_inv (lv : Level) (start : TilePos)
    (hr : start.row < lv.n_rows) (hc : start.col < lv.n_cols) :
    BfsInv lv start
      { fila := [start], visit := visitSet (mkVisit lv) start, pmap := fun _ => none } := by
  have hrow_bound : start.row < (mkVisit lv).length := by
    simpa [mkVisit] using hr
  have hcol_bound : start.col < ((mkVisit lv).getD start.row []).length := by
    rw [List.getD_eq_getElem _ _ hrow_bound]
    simpa [mkVisit] using hc
  have hvis_start : visitGet (visitSet (mkVisit lv) start) start = true :=
    visitGet_visitSet_self hrow_bound hcol_bound
  have honly : ∀ p, visitGet (visitSet (mkVisit lv) start) p = true → p = start := by
    intro p hp
    by_cases hps : p = start
    · exact hps
    · rw [visitGet_visitSet_other hps, visitGet_mkVisit] at hp
      cases hp
  refine ⟨?_, ?_, hvis_start, ?_, rfl, ?_, ?_, List.nodup_singleton _, ?_, ?_, ?_⟩
  · simpa [visitSet, mkVisit] using rfl
  · intro r hrm
    rcases List.mem_or_eq_of_mem_set hrm with h | h
    · rw [List.eq_of_mem_replicate
        (show r ∈ List.replicate lv.n_rows (List.replicate lv.n_cols false) from
          by simpa [mkVisit] using h)]
      simp
    · have e1 : (mkVisit lv).getD start.row [] = List.replicate lv.n_cols false := by
        rw [List.getD_eq_getElem _ _ hrow_bound]
        simp [mkVisit]
      rw [h, List.length_set, e1]
      simp
  · intro p hp hne
    exact absurd (honly p hp) hne
  · intro p hp hne
    exact absurd (honly p hp) hne
  · intro q hq
    rw [List.mem_singleton.mp hq]
    exact hvis_start
  · refine ⟨0, [start], [], by simp, ?_, by simp⟩
    intro a ha
    rw [List.mem_singleton.mp ha]
    exact isDistAt_start lv start
  · intro p hp hnin q hq
    exact absurd (by rw [honly p hp]; exact List.mem_singleton.mpr rfl) hnin
  · intro p hp hnin
    exact absurd (by rw [honly p hp]; exact List.mem_singleton.mpr rfl) hnin

theorem bfs_init_measure (lv : Level) (start : TilePos)
    (hr : start.row < lv.n_rows) (hc : start.col < lv.n_cols) :
    bfsMeasure
        { fila := [start], visit := visitSet (mkVisit lv) start, pmap := fun _ => none }
      ≤ lv.n_rows * lv.n_cols + 1 := by
  have hrow_bound : start.row < (mkVisit lv).length := by
    simpa [mkVisit] using hr
  have hcol_bound : start.col < ((mkVisit lv).getD start.row []).length := by
    rw [List.getD_eq_getElem _ _ hrow_bound]
    simpa [mkVisit] using hc
  have h1 := countFalse_visitSet hrow_bound hcol_bound (visitGet_mkVisit lv start)
  have h2 := countFalse_mkVisit lv
  unfold bfsMeasure
  simp only [List.length_singleton]
  omega

theorem bfs_tail_next_pos (s3 : SnazeSimulation) (nm floc : TilePos)
    (hno3 : ¬(s3.current_food + 1 = s3.n_food ∧
      s3.current_level_index + 1 < (s3.levels.length : Int))) :
    (if nm = floc then
        SnazeSimulation.input_colision { s3 with next_pos := nm } true
          ({ s3 with next_pos := nm }).snake_obj.collision
      else { s3 with next_pos := nm }).next_pos = nm := by
  split_ifs with hfloc
  · exact (input_colision_true_frame { s3 with next_pos := nm }
      ({ s3 with next_pos := nm }).snake_obj.collision (by exact hno3)).2.2.2.2
  · rfl

theorem bfs_next_pos_eq (sim : SnazeSimulation) (order : List direction)
    (hst : sim.current_state = states.SNAKE_THINKING)
    (hno : ¬(sim.current_food + 1 = sim.n_food ∧
      sim.current_level_index + 1 < (sim.levels.length : Int)))
    (f : TilePos) (stf : BfsSt)
    (hr : bfsLoop sim.cur_level (sim.cur_level.n_rows * sim.cur_level.n_cols + 1)
        { fila := [sim.head_pos], visit := visitSet (mkVisit sim.cur_level) sim.head_pos,
          pmap := fun _ => none } = (some f, stf)) :
    (sim.breadthFirst_search order).next_pos
      = Snake.found_food true f stf.pmap sim.cur_level sim.head_pos := by
  unfold SnazeSimulation.breadthFirst_search
  rw [if_neg (by simp [hst])]
  dsimp only
  rw [hr]
  dsimp only
  simp only [Option.isSome_some, Option.getD_some]
  rw [if_pos trivial]
  set R : SnazeSimulation :=
    { sim with snake_obj :=
        { body := sim.snake_obj.body, found_foods := true, collision := false,
          wall_collision := sim.snake_obj.wall_collision } } with hR
  by_cases hfila : stf.fila = []
  · rw [if_pos hfila]
    obtain ⟨ht1, ht2, ht3, ht4, ht5⟩ := troca_frame R order
    have hno3 : ¬((SnazeSimulation.troca R order).current_food + 1
          = (SnazeSimulation.troca R order).n_food ∧
        (SnazeSimulation.troca R order).current_level_index + 1
          < ((SnazeSimulation.troca R order).levels.length : Int)) := by
      rw [ht3, ht4, ht5, ht1]
      exact hno
    exact bfs_tail_next_pos (SnazeSimulation.troca R order) _ _ hno3
  · rw [if_neg hfila]
    exact bfs_tail_next_pos R _ _ (by exact hno)

/-- C1 (amended): when invoked in `SNAKE_THINKING` on a grid whose unique
`FOOD` tile is reachable from the in-bounds head, and the possibly signalled
food event does not complete the level target with a further level available
(in which case the level-transition respawn overwrites the proposal),
`breadthFirst_search` stores in `next_pos`: the food position itself when the
head already sits on the food; otherwise a cell one admissible step from the
head whose shortest-path distance to the food is exactly the head's shortest
distance minus one. -/
theorem C1_bfs_shortest (sim : SnazeSimulation) (order : List direction)
    (foodp : TilePos) (m : Nat)
    (hst : sim.current_state = states.SNAKE_THINKING)
    (hhr : sim.head_pos.row < sim.cur_level.n_rows)
    (hhc : sim.head_pos.col < sim.cur_level.n_cols)
    (htile : sim.cur_level.get_tile_type foodp = tile_type_e.FOOD)
    (huniq : ∀ p ∈ cells sim.cur_level,
      sim.cur_level.get_tile_type p = tile_type_e.FOOD → p = foodp)
    (hreach : ReachI sim.cur_level sim.head_pos m foodp)
    (hno : ¬(sim.current_food + 1 = sim.n_food ∧
      sim.current_level_index + 1 < (sim.levels.length : Int))) :
    (foodp = sim.head_pos → (sim.breadthFirst_search order).next_pos = foodp) ∧
    (foodp ≠ sim.head_pos →
      ∃ d, IsDistAt sim.cur_level sim.head_pos foodp (d + 1) ∧
        validStep sim.cur_level sim.head_pos ((sim.breadthFirst_search order).next_pos) ∧
        ReachI sim.cur_level ((sim.breadthFirst_search order).next_pos) d foodp ∧
        ∀ m', m' < d →
          ¬ReachI sim.cur_level ((sim.breadthFirst_search order).next_pos) m' foodp) := by
  have hinv0 := bfs_init_inv sim.cur_level sim.head_pos hhr hhc
  have hM0 := bfs_init_measure sim.cur_level sim.head_pos hhr hhc
  have hspec := bfsLoop_spec (sim.cur_level.n_rows * sim.cur_level.n_cols + 1)
    { fila := [sim.head_pos], visit := visitSet (mkVisit sim.cur_level) sim.head_pos,
      pmap := fun _ => none } hinv0 hM0
  rcases hrr : bfsLoop sim.cur_level (sim.cur_level.n_rows * sim.cur_level.n_cols + 1)
      { fila := [sim.head_pos], visit := visitSet (mkVisit sim.cur_level) sim.head_pos,
        pmap := fun _ => none } with ⟨res, stf⟩
  cases res with
  | none => exact absurd htile (hspec.2 stf hrr foodp m hreach)
  | some f =>
    obtain ⟨hffood, hpnone, j, hdj, hchain⟩ := hspec.1 f stf hrr
    have hfin : f = foodp := by
      rcases reach_bounds hdj.1 with h1 | h2
      · refine huniq f ?_ hffood
        rw [h1]
        exact mem_cells.mpr ⟨hhr, hhc⟩
      · exact huniq f (mem_cells.mpr h2) hffood
    subst hfin
    have hnp := bfs_next_pos_eq sim order hst hno f stf hrr
    have hjcard : j ≤ sim.cur_level.n_rows * sim.cur_level.n_cols :=
      isDistAt_le_card hhr hhc hdj
    have hval := found_food_value hchain hpnone hjcard
    constructor
    · intro heq
      have hj0 : j = 0 := by
        rw [heq] at hdj
        exact isDistAt_unique hdj (isDistAt_start _ _)
      rw [hnp, (hval.1 hj0).1]
    · intro hne
      have hj1 : 1 ≤ j := by
        rcases Nat.eq_zero_or_pos j with h0 | h1
        · exact absurd (hval.1 h0).2 hne
        · exact h1
      obtain ⟨c, hcv, hc1, hc2, hc3⟩ := hval.2 hj1
      obtain ⟨d, rfl⟩ : ∃ d, j = d + 1 := ⟨j - 1, by omega⟩
      refine ⟨d, hdj, ?_, ?_, ?_⟩
      · rw [hnp, hcv]
        exact hc2
      · rw [hnp, hcv]
        simpa using hc3
      · intro m' hm' hr'
        rw [hnp, hcv] at hr'
        exact hdj.2 (m' + 1) (by omega) (reachI_front hc2 hr')

/-- C1 counterexample: with the food reachable (one step away) but completing
the level target while a further level exists, the invocation ends with
`next_pos` equal to the next level's spawn (0,3) — not adjacent to the head
and not the food — because `level_up`'s respawn overwrites the BFS proposal. -/
theorem C1_counterexample :
    exC1sim.cur_level.get_tile_type ⟨0, 1⟩ = tile_type_e.FOOD ∧
    reachExact exC1sim.cur_level exC1sim.head_pos 1 ⟨0, 1⟩ = true ∧
    (exC1sim.breadthFirst_search
        [direction.up, direction.right, direction.down, direction.left]).next_pos = ⟨0, 3⟩ ∧
    ¬(∃ i : Fin 4, nbr exC1sim.head_pos i = (⟨0, 3⟩ : TilePos)) ∧
    (⟨0, 3⟩ : TilePos) ≠ (⟨0, 1⟩ : TilePos) := by decide

/-- C1 witness: on `baseSim` (head (0,0), unique food at (0,2), distance 2)
the BFS proposal is one admissible step from the head at distance exactly one
from the food. -/
theorem C1_bfs_shortest_witness :
    ∃ d, IsDistAt baseSim.cur_level baseSim.head_pos ⟨0, 2⟩ (d + 1) ∧
      validStep baseSim.cur_level baseSim.head_pos
        ((baseSim.breadthFirst_search
          [direction.up, direction.right, direction.down, direction.left]).next_pos) ∧
      ReachI baseSim.cur_level
        ((baseSim.breadthFirst_search
          [direction.up, direction.right, direction.down, direction.left]).next_pos) d ⟨0, 2⟩ ∧
      ∀ m', m' < d →
        ¬ReachI baseSim.cur_level
          ((baseSim.breadthFirst_search
            [direction.up, direction.right, direction.down, direction.left]).next_pos) m'
          ⟨0, 2⟩ := by
  have h1 : validStep baseSim.cur_level baseSim.head_pos ⟨0, 1⟩ := by decide
  have h2 : validStep baseSim.cur_level ⟨0, 1⟩ ⟨0, 2⟩ := by decide
  have hreach : ReachI baseSim.cur_level baseSim.head_pos 2 ⟨0, 2⟩ :=
    ReachI.succ (ReachI.succ ReachI.zero h1) h2
  exact (C1_bfs_shortest baseSim
      [direction.up, direction.right, direction.down, direction.left] ⟨0, 2⟩ 2
      (by decide) (by decide) (by decide) (by decide) (by decide) hreach (by decide)).2
    (by decide)

end Snaze
